import Mathlib

/-!
# Round-robin load balancer (`main.go`)

A shallow embedding of the dispatch core of `main.go`: the `Server` interface,
`LoadBalancer`, `NewLoadBalancer`, `getNextAvailableServer`, `serveProxy`,
`newSimpleServer` and `handleErr`, followed by the properties proved about
them.

Conventions of the embedding.

* `roundRobinCount` is a Go `int`.  It is modelled as an `Int` kept inside the
  64-bit two's-complement range by `wrapInt` after every `++` (the width of
  `int` on 64-bit targets; on a 32-bit target the same development goes through
  with `2^31` for `2^63`).  Go's `%` truncates towards zero, so it is `Int.tmod`;
  a zero divisor and an index outside `0 .. len-1` are run-time panics, modelled
  by `Panic`.
* A `Server` is a non-nil interface value with a fixed answer to `IsAlive()`.
* The `for !server.IsAlive()` loop can run without bound, so it takes a `fuel`
  argument counting loop iterations; running out of fuel is the outcome
  `spinning`, never a returned server.
* Output (`fmt.Printf`) and calls of `Serve` are recorded as a list of `Event`s;
  `os.Exit` is the error case of `Except ProcessExit`.
* `url.Parse` belongs to Go's standard library.  Its decision to accept or reject
  a text, and the way it splits an accepted one, are embedded from
  `net/url/url.go` (go1.22) over the characters of the text, which for valid UTF-8
  agrees with the byte-wise original: every byte test there singles out ASCII
  bytes or treats all bytes from `0x80` up alike.
-/

namespace Balancer

/-! ## Go `int` -/

/-- Smallest value of a 64-bit Go `int`. -/
def minInt : Int := -9223372036854775808

/-- Largest value of a 64-bit Go `int`. -/
def maxInt : Int := 9223372036854775807

/-- Two's-complement wrap-around of a 64-bit Go `int`: the value stored after an
arithmetic operation whose mathematical result is `x`. -/
def wrapInt (x : Int) : Int :=
  (x + 9223372036854775808) % 18446744073709551616 - 9223372036854775808

/-- Run-time panics of the Go code. -/
inductive Panic where
  | divideByZero
  | indexOutOfRange (index : Int) (length : Nat)
  | serveAborted
deriving DecidableEq, Repr

/-! ## The `Server` interface and `LoadBalancer` -/

/-- A value of the interface `Server` as the balancer sees it: what `Address()`
returns and what `IsAlive()` reports (a fixed answer per target).  `Serve` is an
effect and is recorded in the event trace by `serveProxy`. -/
structure Server where
  Address : String
  IsAlive : Bool
deriving DecidableEq, Repr

/-- The struct `LoadBalancer`. -/
structure LoadBalancer where
  port : String
  roundRobinCount : Int
  servers : List Server
deriving DecidableEq, Repr

/-- `NewLoadBalancer(port, servers)`: no check on `servers`, cursor `0`. -/
def NewLoadBalancer (port : String) (servers : List Server) : LoadBalancer :=
  { roundRobinCount := 0, port := port, servers := servers }

/-- Result of running code that works on the balancer: it returned a value, it
panicked, or the skip loop is still iterating when the fuel ran out.  Each case
carries the balancer state reached. -/
inductive Outcome (α : Type) where
  | returned (value : α) (lb : LoadBalancer)
  | panicked (p : Panic) (lb : LoadBalancer)
  | spinning (lb : LoadBalancer)
deriving DecidableEq, Repr

/-- The expression `lb.servers[lb.roundRobinCount%len(lb.servers)]`: integer
division by zero when the slice is empty, a bounds check on the truncated
remainder otherwise. -/
def serverAtCursor (lb : LoadBalancer) : Except Panic Server :=
  if lb.servers.length = 0 then
    .error .divideByZero
  else
    let index := Int.tmod lb.roundRobinCount lb.servers.length
    if index < 0 then
      .error (.indexOutOfRange index lb.servers.length)
    else
      match lb.servers[index.toNat]? with
      | some server => .ok server
      | none => .error (.indexOutOfRange index lb.servers.length)

/-- The statement `lb.roundRobinCount++`. -/
def incrementCursor (lb : LoadBalancer) : LoadBalancer :=
  { lb with roundRobinCount := wrapInt (lb.roundRobinCount + 1) }

/-- The loop `for !server.IsAlive() { lb.roundRobinCount++; server = ... }`,
entered with the current `server`; `fuel` bounds the number of iterations. -/
def skipLoop : Nat → LoadBalancer → Server → Outcome Server
  | fuel, lb, server =>
    if server.IsAlive then
      .returned server lb
    else
      match fuel with
      | 0 => .spinning lb
      | fuel + 1 =>
        match serverAtCursor (incrementCursor lb) with
        | .error p => .panicked p (incrementCursor lb)
        | .ok next => skipLoop fuel (incrementCursor lb) next

/-- `getNextAvailableServer`: index, skip loop, final increment, return. -/
def getNextAvailableServer (fuel : Nat) (lb : LoadBalancer) : Outcome Server :=
  match serverAtCursor lb with
  | .error p => .panicked p lb
  | .ok first =>
    match skipLoop fuel lb first with
    | .returned server lb1 => .returned server (incrementCursor lb1)
    | .panicked p lb1 => .panicked p lb1
    | .spinning lb1 => .spinning lb1

/-- `n` calls of `getNextAvailableServer` one after another; the servers returned,
in call order.  The first call that does not return ends the run. -/
def dispatches (fuel : Nat) : Nat → LoadBalancer → Outcome (List Server)
  | 0, lb => .returned [] lb
  | n + 1, lb =>
    match getNextAvailableServer fuel lb with
    | .returned server lb1 =>
      match dispatches fuel n lb1 with
      | .returned rest lb2 => .returned (server :: rest) lb2
      | .panicked p lb2 => .panicked p lb2
      | .spinning lb2 => .spinning lb2
    | .panicked p lb1 => .panicked p lb1
    | .spinning lb1 => .spinning lb1

/-! ## `serveProxy` -/

/-- Observable effects of `serveProxy`, in program order. -/
inductive Event where
  | printf (format : String) (argument : String)
  | serve (target : Server)
deriving DecidableEq, Repr

/-- `serveProxy`: one selection, the `Printf` of the chosen address, one call of
`Serve` on the chosen target.  `Serve t = none` when the forward returns,
`some p` when it panics; either way nothing follows it. -/
def serveProxy (fuel : Nat) (Serve : Server → Option Panic) (lb : LoadBalancer) :
    List Event × Outcome Unit :=
  match getNextAvailableServer fuel lb with
  | .returned targetServer lb1 =>
    let log := Event.printf "Forwarding request to address %q\n" targetServer.Address
    match Serve targetServer with
    | none => ([log, Event.serve targetServer], .returned () lb1)
    | some p => ([log, Event.serve targetServer], .panicked p lb1)
  | .panicked p lb1 => ([], .panicked p lb1)
  | .spinning lb1 => ([], .spinning lb1)

/-! ## `net/url.Parse` -/

/-- The errors `url.Parse` reports (go1.22 `net/url/url.go`), by the message they carry. -/
inductive ParseError where
  | invalidControlCharacter
  | missingProtocolScheme
  | firstPathSegmentColon
  | missingBracket
  | invalidPort
  | invalidUserinfo
  | escapeError
  | invalidHostError
deriving DecidableEq, Repr

/-- The `encoding` modes of `net/url` that `Parse` uses. -/
inductive Encoding where
  | encodePath
  | encodeUserPassword
  | encodeHost
  | encodeZone
  | encodeFragment
deriving DecidableEq, Repr

/-- `ishex`. -/
def ishex (c : Char) : Bool :=
  ('0' ≤ c && c ≤ '9') || ('a' ≤ c && c ≤ 'f') || ('A' ≤ c && c ≤ 'F')

/-- `unhex`. -/
def unhex (c : Char) : Nat :=
  if '0' ≤ c && c ≤ '9' then c.toNat - '0'.toNat
  else if 'a' ≤ c && c ≤ 'f' then c.toNat - 'a'.toNat + 10
  else if 'A' ≤ c && c ≤ 'F' then c.toNat - 'A'.toNat + 10
  else 0

/-- An ASCII letter or digit. -/
def isAlnum (b : Nat) : Bool :=
  (97 ≤ b && b ≤ 122) || (65 ≤ b && b ≤ 90) || (48 ≤ b && b ≤ 57)

/-- `shouldEscape(c, encodeHost)` on the byte `b`: everything but letters, digits
and the bytes ``!$&'()*+,;=:[]<>"-_.~`` must be escaped in a host. -/
def shouldEscapeHost (b : Nat) : Bool :=
  !(isAlnum b ||
    [33, 36, 38, 39, 40, 41, 42, 43, 44, 59, 61, 58, 91, 93, 60, 62, 34].contains b ||
    [45, 95, 46, 126].contains b)

/-- The checks of `unescape(s, mode)`: `none` when it succeeds.  A `%` must be
followed by two hex digits; in a host only `%25` and escapes of non-ASCII bytes
are allowed, in a zone only escapes of bytes a host may hold, of a space and
`%25`; a host or zone may hold no ASCII byte that would have to be escaped. -/
def unescapeCheck (mode : Encoding) : List Char → Option ParseError
  | [] => none
  | c :: rest =>
    if c = '%' then
      match rest with
      | h1 :: h2 :: rest2 =>
        if !(ishex h1 && ishex h2) then
          some .escapeError
        else if mode = .encodeHost && unhex h1 < 8 && !(h1 = '2' && h2 = '5') then
          some .escapeError
        else if mode = .encodeZone && !(h1 = '2' && h2 = '5')
            && unhex h1 * 16 + unhex h2 ≠ 32
            && shouldEscapeHost (unhex h1 * 16 + unhex h2) then
          some .escapeError
        else
          unescapeCheck mode rest2
      | _ => some .escapeError
    else if (mode = .encodeHost || mode = .encodeZone) && c.toNat < 128
        && shouldEscapeHost c.toNat then
      some .invalidHostError
    else
      unescapeCheck mode rest

/-- `stringContainsCTLByte`. -/
def stringContainsCTLByte (s : List Char) : Bool :=
  s.any (fun c => c.toNat < 32 || c.toNat = 127)

/-- The loop of `getScheme`, at byte `i` with `rest` still to read. -/
def getSchemeLoop (rawURL : List Char) :
    Nat → List Char → Except ParseError (List Char × List Char)
  | _, [] => .ok ([], rawURL)
  | i, c :: rest =>
    if ('a' ≤ c && c ≤ 'z') || ('A' ≤ c && c ≤ 'Z') then
      getSchemeLoop rawURL (i + 1) rest
    else if ('0' ≤ c && c ≤ '9') || c = '+' || c = '-' || c = '.' then
      if i = 0 then .ok ([], rawURL) else getSchemeLoop rawURL (i + 1) rest
    else if c = ':' then
      if i = 0 then .error .missingProtocolScheme else .ok (rawURL.take i, rest)
    else
      .ok ([], rawURL)

/-- `getScheme(rawURL)`: `(scheme, rest)`. -/
def getScheme (rawURL : List Char) : Except ParseError (List Char × List Char) :=
  getSchemeLoop rawURL 0 rawURL

/-- `strings.Cut(s, sep)` for a one-byte separator: the text before and after the
first `sep`, or `(s, "")` when there is none. -/
def cut (sep : Char) : List Char → List Char × List Char
  | [] => ([], [])
  | c :: rest =>
    if c = sep then ([], rest)
    else ((cut sep rest).1.cons c, (cut sep rest).2)

/-- `strings.LastIndex(s, sep)` for a one-byte separator, `none` for `-1`. -/
def lastIndex (sep : Char) (s : List Char) : Option Nat :=
  match (s.reverse.indexOf sep) with
  | i => if i < s.length then some (s.length - 1 - i) else none

/-- `strings.Index(s, "%25")`, `none` for `-1`. -/
def indexPercent25 : List Char → Option Nat
  | [] => none
  | c :: rest =>
    if (c :: rest).take 3 = ['%', '2', '5'] then some 0
    else (indexPercent25 rest).map (· + 1)

/-- `validOptionalPort`. -/
def validOptionalPort (port : List Char) : Bool :=
  match port with
  | [] => true
  | c :: digits => c = ':' && digits.all (fun b => '0' ≤ b && b ≤ '9')

/-- `validUserinfo`. -/
def validUserinfo (s : List Char) : Bool :=
  s.all (fun r =>
    isAlnum r.toNat ||
      [45, 46, 95, 58, 126, 33, 36, 38, 39, 40, 41, 42, 43, 44, 59, 61, 37, 64].contains r.toNat)

/-- `parseHost`, as far as it can fail. -/
def parseHost (host : List Char) : Option ParseError :=
  if host.head? = some '[' then
    match lastIndex ']' host with
    | none => some .missingBracket
    | some i =>
      if !validOptionalPort (host.drop (i + 1)) then
        some .invalidPort
      else
        match indexPercent25 (host.take i) with
        | some zone =>
          (unescapeCheck .encodeHost (host.take zone)).orElse fun _ =>
          (unescapeCheck .encodeZone ((host.take i).drop zone)).orElse fun _ =>
          unescapeCheck .encodeHost (host.drop i)
        | none => unescapeCheck .encodeHost host
  else
    match lastIndex ':' host with
    | some i =>
      if !validOptionalPort (host.drop i) then some .invalidPort
      else unescapeCheck .encodeHost host
    | none => unescapeCheck .encodeHost host

/-- `parseAuthority`, as far as it can fail. -/
def parseAuthority (authority : List Char) : Option ParseError :=
  match lastIndex '@' authority with
  | none => parseHost authority
  | some i =>
    (parseHost (authority.drop (i + 1))).orElse fun _ =>
    let userinfo := authority.take i
    if !validUserinfo userinfo then
      some .invalidUserinfo
    else if !userinfo.contains ':' then
      unescapeCheck .encodeUserPassword userinfo
    else
      (unescapeCheck .encodeUserPassword (cut ':' userinfo).1).orElse fun _ =>
      unescapeCheck .encodeUserPassword (cut ':' userinfo).2

/-- What `url.Parse` splits the text into.  `Scheme`, `Opaque`, `ForceQuery`,
`RawQuery` and `OmitHost` are the fields of `url.URL`; authority, path and
fragment are kept as written (`User`, `Host`, `Path` and `Fragment` are their
percent-decoded forms, which nothing in this program reads). -/
structure URL where
  Scheme : String
  Opaque : String
  authority : String
  path : String
  ForceQuery : Bool
  RawQuery : String
  fragment : String
  OmitHost : Bool
deriving DecidableEq, Repr

/-- `*url.Error`. -/
structure UrlError where
  Op : String
  URL : String
  Err : ParseError
deriving DecidableEq, Repr

/-- The unexported `parse(rawURL, viaRequest = false)`. -/
def parse (rawURL : List Char) : Except ParseError URL :=
  if stringContainsCTLByte rawURL then
    .error .invalidControlCharacter
  else if rawURL = ['*'] then
    .ok ⟨"", "", "", "*", false, "", "", false⟩
  else
    match getScheme rawURL with
    | .error e => .error e
    | .ok (scheme0, rest0) =>
      let scheme := scheme0.map Char.toLower
      let forceQuery := rest0.getLast? = some '?' && rest0.count '?' = 1
      let rest1 := if forceQuery then rest0.dropLast else (cut '?' rest0).1
      let rawQuery := if forceQuery then [] else (cut '?' rest0).2
      if rest1.head? ≠ some '/' && scheme ≠ [] then
        .ok ⟨String.mk scheme, String.mk rest1, "", "", forceQuery, String.mk rawQuery, "", false⟩
      else if rest1.head? ≠ some '/' && (cut '/' rest1).1.contains ':' then
        .error .firstPathSegmentColon
      else if (scheme ≠ [] || rest1.take 3 ≠ ['/', '/', '/']) && rest1.take 2 = ['/', '/'] then
        let authority := (cut '/' (rest1.drop 2)).1
        let rest2 := (rest1.drop 2).drop authority.length
        match parseAuthority authority with
        | some e => .error e
        | none =>
          match unescapeCheck .encodePath rest2 with
          | some e => .error e
          | none =>
            .ok ⟨String.mk scheme, "", String.mk authority, String.mk rest2, forceQuery,
              String.mk rawQuery, "", false⟩
      else
        match unescapeCheck .encodePath rest1 with
        | some e => .error e
        | none =>
          .ok ⟨String.mk scheme, "", "", String.mk rest1, forceQuery, String.mk rawQuery, "",
            scheme ≠ [] && rest1.head? = some '/'⟩

/-- `url.Parse(rawURL)`: the fragment is cut off at the first `#`, the rest goes
through `parse`, then the fragment is checked. -/
def urlParse (rawURL : String) : Except UrlError URL :=
  let u := (cut '#' rawURL.data).1
  let frag := (cut '#' rawURL.data).2
  match parse u with
  | .error e => .error ⟨"parse", String.mk u, e⟩
  | .ok url =>
    if frag = [] then .ok url
    else
      match unescapeCheck .encodeFragment frag with
      | some e => .error ⟨"parse", rawURL, e⟩
      | none => .ok { url with fragment := String.mk frag }

/-! ## `simpleServer`, `handleErr`, `newSimpleServer` -/

/-- `*httputil.ReverseProxy` as built by `NewSingleHostReverseProxy(target)`: the
proxy rewrites every request to `target`, a `*url.URL` (`none` is the nil pointer). -/
structure ReverseProxy where
  target : Option URL
deriving DecidableEq, Repr

/-- `httputil.NewSingleHostReverseProxy`. -/
def NewSingleHostReverseProxy (target : Option URL) : ReverseProxy := ⟨target⟩

/-- The struct `simpleServer`. -/
structure simpleServer where
  addr : String
  proxy : ReverseProxy
deriving DecidableEq, Repr

/-- `func (s *simpleServer) Address() string { return s.addr }`. -/
def simpleServer.Address (s : simpleServer) : String := s.addr

/-- `func (s *simpleServer) IsAlive() bool { return true }`. -/
def simpleServer.IsAlive (_s : simpleServer) : Bool := true

/-- A `*simpleServer` used as a `Server`. -/
def simpleServer.toServer (s : simpleServer) : Server := ⟨s.Address, s.IsAlive⟩

/-- The process ended by `os.Exit(status)` after `fmt.Printf(format, err)`. -/
structure ProcessExit where
  format : String
  err : UrlError
  status : Nat
deriving DecidableEq, Repr

/-- `handleErr(err)`: prints the error and exits with status 1 when `err != nil`,
returns otherwise. -/
def handleErr (err : Option UrlError) : Except ProcessExit Unit :=
  match err with
  | some e => .error ⟨"error : %v\n", e, 1⟩
  | none => .ok ()

/-- The two results `serverURL, err` of `url.Parse(addr)`: `(nil, err)` on failure,
`(url, nil)` on success. -/
def urlParseResults (addr : String) : Option URL × Option UrlError :=
  match urlParse addr with
  | .error e => (none, some e)
  | .ok url => (some url, none)

/-- `newSimpleServer(addr)`: `url.Parse`, `handleErr` on its error, then the struct
holding `addr` and the proxy for the parsed URL. -/
def newSimpleServer (addr : String) : Except ProcessExit simpleServer :=
  match handleErr (urlParseResults addr).2 with
  | .error exit => .error exit
  | .ok () => .ok ⟨addr, NewSingleHostReverseProxy (urlParseResults addr).1⟩

/-! ## Concurrent dispatches

`net/http` runs the handler of every request in a goroutine of its own, so several
executions of `getNextAvailableServer` can be in progress on the one balancer.
The source takes no lock and uses no atomic operation.  Below, one execution is
cut at its statements (source lines 72 to 78); a schedule names the goroutine that
runs its next statement.  Each statement is taken as atomic, which is more than Go
promises for the unsynchronised `lb.roundRobinCount++`. -/

/-- Where one execution of `getNextAvailableServer` stands: the line it runs next,
with the cursor value it read last (`observed`) and its local `server`. -/
inductive Goroutine where
  | line72
  | line73 (observed : Int) (server : Server)
  | line74
  | line75
  | line77 (observed : Int) (server : Server)
  | returned (observed : Int) (server : Server)
  | panicked (p : Panic)
deriving DecidableEq, Repr

/-- One statement of one goroutine on the shared balancer. -/
def Goroutine.step (lb : LoadBalancer) : Goroutine → LoadBalancer × Goroutine
  | .line72 =>
    match serverAtCursor lb with
    | .ok server => (lb, .line73 lb.roundRobinCount server)
    | .error p => (lb, .panicked p)
  | .line73 observed server =>
    if server.IsAlive then (lb, .line77 observed server) else (lb, .line74)
  | .line74 => (incrementCursor lb, .line75)
  | .line75 =>
    match serverAtCursor lb with
    | .ok server => (lb, .line73 lb.roundRobinCount server)
    | .error p => (lb, .panicked p)
  | .line77 observed server => (incrementCursor lb, .returned observed server)
  | .returned observed server => (lb, .returned observed server)
  | .panicked p => (lb, .panicked p)

/-- The shared balancer and the goroutines dispatching on it. -/
structure World where
  lb : LoadBalancer
  goroutines : List Goroutine
deriving DecidableEq, Repr

/-- Goroutine number `tid` runs its next statement. -/
def World.step (w : World) (tid : Nat) : World :=
  match w.goroutines[tid]? with
  | none => w
  | some g => ⟨(g.step w.lb).1, w.goroutines.set tid (g.step w.lb).2⟩

/-- The statements run in the order the schedule gives. -/
def World.run (w : World) (schedule : List Nat) : World :=
  schedule.foldl World.step w

/-! ## Ghost definitions -/

/-- Ghost count used in the proofs: the number of positions `q < p` of the slice
read cyclically (`q ↦ servers[q mod len]`) whose target reports alive. -/
def aliveBefore (servers : List Server) (p : Nat) : Nat :=
  (servers.filter (fun s => s.IsAlive)).length * (p / servers.length)
    + ((servers.take (p % servers.length)).filter (fun s => s.IsAlive)).length

/-- Ghost companion of `getNextAvailableServer`: the same call, built from the same
index expression and skip loop, reporting instead of the server the value that
`lb.roundRobinCount%len(lb.servers)` has when the loop is left, that is the index
of the slice element the call returns. -/
def getNextAvailableIndex (fuel : Nat) (lb : LoadBalancer) : Outcome Nat :=
  match serverAtCursor lb with
  | .error p => .panicked p lb
  | .ok first =>
    match skipLoop fuel lb first with
    | .returned _ lb1 =>
      .returned (Int.tmod lb1.roundRobinCount lb1.servers.length).toNat (incrementCursor lb1)
    | .panicked p lb1 => .panicked p lb1
    | .spinning lb1 => .spinning lb1

/-- Ghost companion of `dispatches`: the indices selected by `n` calls one after
another, in call order. -/
def selections (fuel : Nat) : Nat → LoadBalancer → Outcome (List Nat)
  | 0, lb => .returned [] lb
  | n + 1, lb =>
    match getNextAvailableIndex fuel lb with
    | .returned index lb1 =>
      match selections fuel n lb1 with
      | .returned rest lb2 => .returned (index :: rest) lb2
      | .panicked p lb2 => .panicked p lb2
      | .spinning lb2 => .spinning lb2
    | .panicked p lb1 => .panicked p lb1
    | .spinning lb1 => .spinning lb1

/-! ## Test doubles -/

/-- Three live targets and one that reports not-alive. -/
def srvA : Server := ⟨"A", true⟩

/-- Second live target. -/
def srvB : Server := ⟨"B", true⟩

/-- Third live target. -/
def srvC : Server := ⟨"C", true⟩

/-- Target `B` reporting not-alive. -/
def deadB : Server := ⟨"B", false⟩

/-! ## Arithmetic of the cursor -/

theorem wrapInt_of_inRange (x : Int) (h1 : minInt ≤ x) (h2 : x ≤ maxInt) : wrapInt x = x := by
  unfold wrapInt
  unfold minInt at h1
  unfold maxInt at h2
  omega

theorem wrapInt_natCast (c : Nat) (h : (c : Int) ≤ maxInt) : wrapInt (c : Int) = c := by
  apply wrapInt_of_inRange _ _ h
  unfold minInt
  omega

theorem wrapInt_overflow : wrapInt (maxInt + 1) = minInt := by decide

/-- With a non-negative cursor `c` the index expression reads `servers[c % len]`. -/
theorem serverAtCursor_natCast (port : String) (c : Nat) (servers : List Server) (s : Server)
    (h : servers[c % servers.length]? = some s) :
    serverAtCursor ⟨port, (c : Int), servers⟩ = .ok s := by
  have hlen : servers.length ≠ 0 := by
    intro h0
    rw [List.getElem?_eq_some_iff] at h
    obtain ⟨hlt, _⟩ := h
    omega
  unfold serverAtCursor
  simp only [hlen, if_false]
  have hmod : Int.tmod (c : Int) (servers.length : Int) = ((c % servers.length : Nat) : Int) :=
    (Int.ofNat_tmod c servers.length).symm
  simp only [hmod]
  have hnn : ¬ (((c % servers.length : Nat) : Int) < 0) := by omega
  simp only [hnn, if_false, Int.toNat_ofNat, h]

theorem incrementCursor_natCast (port : String) (c : Nat) (servers : List Server)
    (h : (c : Int) + 1 ≤ maxInt) :
    incrementCursor ⟨port, (c : Int), servers⟩ = ⟨port, ((c + 1 : Nat) : Int), servers⟩ := by
  unfold incrementCursor
  have : wrapInt ((c : Int) + 1) = ((c + 1 : Nat) : Int) := by
    have := wrapInt_natCast (c + 1) (by push_cast; exact h)
    push_cast at this ⊢
    exact this
  simp [this]

/-- The skip loop started at a non-negative cursor `c` on the server at `c`: when
the `k` targets at `c, ..., c+k-1` (cyclically) report not-alive and the one at
`c+k` reports alive, `k` iterations suffice and the loop stops at cursor `c+k`. -/
theorem skipLoop_natCast (port : String) (servers : List Server) (a : Server) :
    ∀ (k fuel c : Nat) (server : Server),
      (∀ j, j < k → ∃ s, servers[(c + j) % servers.length]? = some s ∧ s.IsAlive = false) →
      servers[(c + k) % servers.length]? = some a → a.IsAlive = true →
      servers[c % servers.length]? = some server →
      k ≤ fuel → ((c + k : Nat) : Int) ≤ maxInt →
      skipLoop fuel ⟨port, (c : Int), servers⟩ server
        = .returned a ⟨port, ((c + k : Nat) : Int), servers⟩ := by
  intro k
  induction k with
  | zero =>
    intro fuel c server _ ha halive hcur _ _
    have hsa : server = a := by
      simp only [Nat.add_zero] at ha
      rw [hcur] at ha
      exact Option.some.inj ha
    subst hsa
    unfold skipLoop
    simp [halive]
  | succ k ih =>
    intro fuel c server hdead ha halive hcur hfuel hrange
    obtain ⟨s0, hs0, hs0dead⟩ := hdead 0 (Nat.succ_pos k)
    simp only [Nat.add_zero] at hs0
    have hs : server = s0 := by
      rw [hcur] at hs0
      exact Option.some.inj hs0
    subst hs
    obtain ⟨fuel1, rfl⟩ : ∃ f, fuel = f + 1 := ⟨fuel - 1, by omega⟩
    obtain ⟨next, hnext⟩ : ∃ s, servers[(c + 1) % servers.length]? = some s := by
      cases k with
      | zero => exact ⟨a, ha⟩
      | succ k1 =>
        obtain ⟨s1, hs1, _⟩ := hdead 1 (by omega)
        exact ⟨s1, hs1⟩
    have hinc : incrementCursor ⟨port, (c : Int), servers⟩
        = ⟨port, ((c + 1 : Nat) : Int), servers⟩ :=
      incrementCursor_natCast port c servers (by push_cast at hrange ⊢; omega)
    unfold skipLoop
    simp only [hs0dead, Bool.false_eq_true, if_false, hinc,
      serverAtCursor_natCast port (c + 1) servers next hnext]
    have hstep := ih fuel1 (c + 1) next
      (fun j hj => by
        obtain ⟨s, hs, hsd⟩ := hdead (j + 1) (by omega)
        refine ⟨s, ?_, hsd⟩
        rw [show c + 1 + j = c + (j + 1) by omega]
        exact hs)
      (by rw [show c + 1 + k = c + (k + 1) by omega]; exact ha)
      halive hnext (by omega)
      (by rw [show c + 1 + k = c + (k + 1) by omega]; exact hrange)
    rw [hstep, show c + 1 + k = c + (k + 1) by omega]

/-- One call from a non-negative cursor `c`, in the situation of `skipLoop_natCast`:
the target at `c+k` is returned and the stored cursor is `c+k+1` (wrapped). -/
theorem getNextAvailableServer_natCast (port : String) (servers : List Server) (a : Server)
    (k fuel c : Nat)
    (hdead : ∀ j, j < k → ∃ s, servers[(c + j) % servers.length]? = some s ∧ s.IsAlive = false)
    (ha : servers[(c + k) % servers.length]? = some a) (halive : a.IsAlive = true)
    (hfuel : k ≤ fuel) (hrange : ((c + k : Nat) : Int) ≤ maxInt) :
    getNextAvailableServer fuel ⟨port, (c : Int), servers⟩
      = .returned a ⟨port, wrapInt (((c + k : Nat) : Int) + 1), servers⟩ := by
  obtain ⟨first, hfirst⟩ : ∃ s, servers[c % servers.length]? = some s := by
    cases k with
    | zero => exact ⟨a, ha⟩
    | succ k1 =>
      obtain ⟨s1, hs1, _⟩ := hdead 0 (by omega)
      exact ⟨s1, hs1⟩
  unfold getNextAvailableServer
  simp only [serverAtCursor_natCast port c servers first hfirst,
    skipLoop_natCast port servers a k fuel c first hdead ha halive hfirst hfuel hrange]
  rfl

/-! ## What a returned server always satisfies -/

theorem serverAtCursor_mem (lb : LoadBalancer) (s : Server)
    (h : serverAtCursor lb = .ok s) : s ∈ lb.servers := by
  unfold serverAtCursor at h
  split at h
  · cases h
  · simp only at h
    split at h
    · cases h
    · split at h
      · rename_i server hget
        cases h
        exact List.getElem?_mem hget
      · cases h

theorem incrementCursor_servers (lb : LoadBalancer) :
    (incrementCursor lb).servers = lb.servers := rfl

theorem incrementCursor_port (lb : LoadBalancer) :
    (incrementCursor lb).port = lb.port := rfl

/-- The skip loop only ever hands back a server that reports alive, taken from the
slice (or the one it was entered with), and leaves port and slice untouched. -/
theorem skipLoop_returned (fuel : Nat) :
    ∀ (lb : LoadBalancer) (server s : Server) (lb1 : LoadBalancer),
      skipLoop fuel lb server = .returned s lb1 →
      s.IsAlive = true ∧ (s = server ∨ s ∈ lb.servers) ∧
        lb1.servers = lb.servers ∧ lb1.port = lb.port := by
  induction fuel with
  | zero =>
    intro lb server s lb1 h
    unfold skipLoop at h
    by_cases halive : server.IsAlive = true
    · simp only [halive, if_true] at h
      cases h
      exact ⟨halive, Or.inl rfl, rfl, rfl⟩
    · simp [halive] at h
  | succ fuel ih =>
    intro lb server s lb1 h
    unfold skipLoop at h
    by_cases halive : server.IsAlive = true
    · simp only [halive, if_true] at h
      cases h
      exact ⟨halive, Or.inl rfl, rfl, rfl⟩
    · simp only [halive, Bool.false_eq_true, if_false] at h
      cases hnext : serverAtCursor (incrementCursor lb) with
      | error p => simp [hnext] at h
      | ok next =>
        simp only [hnext] at h
        obtain ⟨h1, h2, h3, h4⟩ := ih _ _ _ _ h
        refine ⟨h1, Or.inr ?_, ?_, ?_⟩
        · rcases h2 with h2 | h2
          · subst h2
            have hm := serverAtCursor_mem (incrementCursor lb) _ hnext
            exact hm
          · exact h2
        · rw [h3]; rfl
        · rw [h4]; rfl

/-- Whatever the state and the fuel, a server returned by `getNextAvailableServer`
is an element of the slice that reports alive. -/
theorem getNextAvailableServer_returned (fuel : Nat) (lb : LoadBalancer) (s : Server)
    (lb1 : LoadBalancer) (h : getNextAvailableServer fuel lb = .returned s lb1) :
    s.IsAlive = true ∧ s ∈ lb.servers ∧ lb1.servers = lb.servers ∧ lb1.port = lb.port := by
  unfold getNextAvailableServer at h
  cases hfirst : serverAtCursor lb with
  | error p => simp [hfirst] at h
  | ok first =>
    simp only [hfirst] at h
    cases hloop : skipLoop fuel lb first with
    | returned server lb2 =>
      simp only [hloop, Outcome.returned.injEq] at h
      obtain ⟨hs, hlb⟩ := h
      subst hs hlb
      obtain ⟨h1, h2, h3, h4⟩ := skipLoop_returned fuel lb first server lb2 hloop
      refine ⟨h1, ?_, ?_, ?_⟩
      · rcases h2 with h2 | h2
        · subst h2
          exact serverAtCursor_mem _ _ hfirst
        · exact h2
      · rw [incrementCursor_servers, h3]
      · rw [incrementCursor_port, h4]
    | panicked p lb2 => simp [hloop] at h
    | spinning lb2 => simp [hloop] at h

/-! ## The first live target at or after the cursor -/

theorem cyclic_offset (c i n : Nat) (hi : i < n) : (c + (i + n - c % n) % n) % n = i := by
  rw [Nat.add_mod_mod]
  have hq := Nat.div_add_mod c n
  have hcm : c % n < n := Nat.mod_lt _ (by omega)
  have hsum : c + (i + n - c % n) = i + n * (c / n + 1) := by
    rw [Nat.mul_add, Nat.mul_one]
    omega
  rw [hsum, Nat.add_mul_mod_self_left, Nat.mod_eq_of_lt hi]

/-- In a slice with a live target, from every position `c` there is a least offset
`k < len` such that the targets at `c, ..., c+k-1` (cyclically) are not alive and
the one at `c+k` is. -/
theorem exists_first_alive (servers : List Server) (c : Nat)
    (h : ∃ s ∈ servers, s.IsAlive = true) :
    ∃ (k : Nat) (a : Server), k < servers.length ∧
      (∀ j, j < k → ∃ s, servers[(c + j) % servers.length]? = some s ∧ s.IsAlive = false) ∧
      servers[(c + k) % servers.length]? = some a ∧ a.IsAlive = true := by
  classical
  obtain ⟨s, hmem, halive⟩ := h
  obtain ⟨i, hi, hget⟩ := List.getElem_of_mem hmem
  have hpos : 0 < servers.length := by omega
  let P : Nat → Prop := fun k =>
    ∃ a, servers[(c + k) % servers.length]? = some a ∧ a.IsAlive = true
  have hwit : P ((i + servers.length - c % servers.length) % servers.length) := by
    refine ⟨s, ?_, halive⟩
    rw [cyclic_offset c i servers.length hi, List.getElem?_eq_getElem hi, hget]
  have hex : ∃ k, P k := ⟨_, hwit⟩
  have hk : P (Nat.find hex) := Nat.find_spec hex
  have hle : Nat.find hex ≤ (i + servers.length - c % servers.length) % servers.length :=
    Nat.find_min' hex hwit
  obtain ⟨a, ha, haalive⟩ := hk
  refine ⟨Nat.find hex, a, ?_, ?_, ha, haalive⟩
  · have := Nat.mod_lt (i + servers.length - c % servers.length) hpos
    omega
  · intro j hj
    have hnot : ¬ P j := Nat.find_min hex hj
    have hlt : (c + j) % servers.length < servers.length := Nat.mod_lt _ hpos
    refine ⟨servers[(c + j) % servers.length], List.getElem?_eq_getElem hlt, ?_⟩
    by_contra hne
    apply hnot
    refine ⟨servers[(c + j) % servers.length], List.getElem?_eq_getElem hlt, ?_⟩
    simpa using hne

/-! ## Sequential dispatches -/

/-- Running `m + n` calls is running `m` calls and then `n` more. -/
theorem dispatches_add (fuel : Nat) (n : Nat) :
    ∀ (m : Nat) (lb : LoadBalancer),
      dispatches fuel (m + n) lb =
        match dispatches fuel m lb with
        | .returned out1 lb1 =>
          match dispatches fuel n lb1 with
          | .returned out2 lb2 => .returned (out1 ++ out2) lb2
          | .panicked p lb2 => .panicked p lb2
          | .spinning lb2 => .spinning lb2
        | .panicked p lb1 => .panicked p lb1
        | .spinning lb1 => .spinning lb1 := by
  intro m
  induction m with
  | zero =>
    intro lb
    simp only [Nat.zero_add, dispatches]
    cases dispatches fuel n lb <;> simp
  | succ m ih =>
    intro lb
    rw [Nat.succ_add]
    simp only [dispatches]
    cases hfirst : getNextAvailableServer fuel lb with
    | returned server lb1 =>
      simp only [ih lb1]
      cases hm : dispatches fuel m lb1 with
      | returned out1 lb2 =>
        simp only []
        cases hn : dispatches fuel n lb2 <;> simp
      | panicked p lb2 => simp
      | spinning lb2 => simp
    | panicked p lb1 => simp
    | spinning lb1 => simp

/-- With every target alive, `N` calls from a non-negative cursor `c` that stays
within the `int` range return the targets at `c, c+1, ...` (cyclically). -/
theorem dispatches_allAlive_from (port : String) (servers : List Server)
    (hne : servers ≠ []) (hall : ∀ s ∈ servers, s.IsAlive = true) (fuel : Nat) :
    ∀ (N c : Nat), (c : Int) ≤ maxInt → ((c + N : Nat) : Int) ≤ maxInt + 1 →
      ∃ out, dispatches fuel N ⟨port, (c : Int), servers⟩
          = .returned out ⟨port, wrapInt ((c + N : Nat) : Int), servers⟩ ∧
        out.map some = (List.range N).map (fun i => servers[(c + i) % servers.length]?) := by
  have hpos : 0 < servers.length := List.length_pos.mpr hne
  intro N
  induction N with
  | zero =>
    intro c hc _
    refine ⟨[], ?_, by simp⟩
    simp only [dispatches, Nat.add_zero, wrapInt_natCast c hc]
  | succ N ih =>
    intro c hc hN
    have hlt : c % servers.length < servers.length := Nat.mod_lt _ hpos
    obtain ⟨a, ha⟩ : ∃ a, servers[c % servers.length]? = some a :=
      ⟨_, List.getElem?_eq_getElem hlt⟩
    have hcall := getNextAvailableServer_natCast port servers a
      0 fuel c (fun j hj => absurd hj (Nat.not_lt_zero j))
      (by rw [Nat.add_zero]; exact ha)
      (hall _ (List.getElem?_mem ha)) (Nat.zero_le _) (by simpa using hc)
    simp only [Nat.add_zero] at hcall
    have hrange : List.map (fun i => servers[(c + i) % servers.length]?) (List.range (N + 1))
        = some a :: List.map (fun i => servers[(c + 1 + i) % servers.length]?) (List.range N) := by
      rw [List.range_succ_eq_map, List.map_cons, List.map_map, Nat.add_zero, ha]
      congr 1
      apply List.map_congr_left
      intro i _
      simp only [Function.comp, Nat.succ_eq_add_one]
      rw [show c + 1 + i = c + (i + 1) by omega]
    by_cases hnext : ((c + 1 : Nat) : Int) ≤ maxInt
    · have hw : wrapInt ((c : Int) + 1) = ((c + 1 : Nat) : Int) := by
        have := wrapInt_natCast (c + 1) hnext
        push_cast at this ⊢
        exact this
      obtain ⟨rest, hrest, hmap⟩ := ih (c + 1) hnext
        (by rw [show c + 1 + N = c + (N + 1) by omega]; exact hN)
      refine ⟨a :: rest, ?_, ?_⟩
      · simp only [dispatches, hcall, hw, hrest]
        rw [show c + 1 + N = c + (N + 1) by omega]
      · rw [hrange, List.map_cons, hmap]
    · have hN0 : N = 0 := by
        unfold maxInt at hnext hN hc
        push_cast at hnext hN hc
        omega
      subst hN0
      refine ⟨[a], ?_, ?_⟩
      · simp only [dispatches, hcall]
        push_cast
        rfl
      · rw [hrange]
        simp

theorem getElem?_of_map_some_eq (out : List Server) (N : Nat) (f : Nat → Option Server)
    (h : out.map some = (List.range N).map f) :
    out.length = N ∧ ∀ i, i < N → out[i]? = f i := by
  have hlen : out.length = N := by
    have := congrArg List.length h
    simpa using this
  refine ⟨hlen, ?_⟩
  intro i hi
  have hget := congrArg (fun l => l[i]?) h
  simp only [List.getElem?_map, List.getElem?_range hi, Option.map_some'] at hget
  cases hout : out[i]? with
  | none => simp [hout] at hget
  | some x =>
    rw [hout] at hget
    simp only [Option.map_some', Option.some.injEq] at hget
    exact hget

/-! ## Round robin over live targets (C1) -/

/-- C1, amended: for every non-empty target list in which every target reports
alive and every `N ≤ 2^63`, `N` sequential calls of `getNextAvailableServer` on a
balancer freshly built by `NewLoadBalancer` all return, the `i`-th call (from 0)
returning `servers[i mod len(servers)]`; the cursor ends at `N` (wrapped). -/
theorem roundRobin_allAlive (port : String) (servers : List Server) (N fuel : Nat)
    (hne : servers ≠ []) (hall : ∀ s ∈ servers, s.IsAlive = true)
    (hN : N ≤ 9223372036854775808) :
    ∃ out, dispatches fuel N (NewLoadBalancer port servers)
        = .returned out ⟨port, wrapInt (N : Int), servers⟩ ∧
      out.length = N ∧ ∀ i, i < N → out[i]? = servers[i % servers.length]? := by
  obtain ⟨out, hrun, hmap⟩ := dispatches_allAlive_from port servers hne hall fuel N 0
    (by decide) (by unfold maxInt; push_cast; omega)
  simp only [Nat.zero_add, Nat.cast_zero] at hrun hmap
  exact ⟨out, hrun, getElem?_of_map_some_eq out N _ hmap⟩

/-- C1, witness: targets `A, B, C`, four dispatches select `A, B, C, A`. -/
theorem roundRobin_allAlive_witness :
    dispatches 0 4 (NewLoadBalancer "8080" [srvA, srvB, srvC])
        = .returned [srvA, srvB, srvC, srvA] ⟨"8080", 4, [srvA, srvB, srvC]⟩ ∧
      ∃ out, dispatches 0 4 (NewLoadBalancer "8080" [srvA, srvB, srvC])
          = .returned out ⟨"8080", wrapInt ((4 : Nat) : Int), [srvA, srvB, srvC]⟩ ∧
        out.length = 4 ∧ ∀ i, i < 4 → out[i]? = [srvA, srvB, srvC][i % [srvA, srvB, srvC].length]? :=
  ⟨by decide,
    roundRobin_allAlive "8080" [srvA, srvB, srvC] 4 0 (by decide) (by decide) (by decide)⟩

/-- C1, counterexample to the unbounded form: after `2^63` selections the cursor has
wrapped to `minInt`, the next index is `-2`, and call number `2^63` of a run of
`2^63 + 1` dispatches over `A, B, C` panics instead of returning `servers[2^63 mod 3]`. -/
theorem roundRobin_allAlive_overflow :
    dispatches 0 (9223372036854775808 + 1) (NewLoadBalancer "8080" [srvA, srvB, srvC])
      = .panicked (.indexOutOfRange (-2) 3) ⟨"8080", minInt, [srvA, srvB, srvC]⟩ := by
  obtain ⟨out, hrun, _⟩ := dispatches_allAlive_from "8080" [srvA, srvB, srvC]
    (by decide) (by decide) 0 9223372036854775808 0 (by decide) (by decide)
  have hw : wrapInt ((0 + 9223372036854775808 : Nat) : Int) = minInt := by decide
  rw [hw] at hrun
  have hrun1 : dispatches 0 9223372036854775808 (NewLoadBalancer "8080" [srvA, srvB, srvC])
      = .returned out ⟨"8080", minInt, [srvA, srvB, srvC]⟩ := hrun
  rw [dispatches_add, hrun1]
  have hlast : dispatches 0 1 ⟨"8080", minInt, [srvA, srvB, srvC]⟩
      = .panicked (.indexOutOfRange (-2) 3) ⟨"8080", minInt, [srvA, srvB, srvC]⟩ := by decide
  simp only [hlast]

/-! ## Empty target list (C4) -/

/-- C4: `NewLoadBalancer` accepts an empty target list (it is a total function
that stores the list as given, with cursor 0), and on the resulting balancer every
call of `getNextAvailableServer` panics with an integer division by zero in the
index computation: no target is returned, and the state at the panic is still the
freshly built one, so the cursor increment was never reached. -/
theorem emptyTargets_divideByZero (port : String) (fuel : Nat) :
    NewLoadBalancer port [] = ⟨port, 0, []⟩ ∧
      getNextAvailableServer fuel (NewLoadBalancer port [])
        = .panicked .divideByZero (NewLoadBalancer port []) ∧
      (∀ s lb1, getNextAvailableServer fuel (NewLoadBalancer port []) ≠ .returned s lb1) ∧
      dispatches fuel 1 (NewLoadBalancer port [])
        = .panicked .divideByZero (NewLoadBalancer port []) := by
  have hcall : getNextAvailableServer fuel (NewLoadBalancer port [])
      = .panicked .divideByZero (NewLoadBalancer port []) := rfl
  refine ⟨rfl, hcall, ?_, ?_⟩
  · intro s lb1 h
    rw [hcall] at h
    cases h
  · simp only [dispatches, hcall]

/-! ## Cursor overflow (C3) -/

/-- C3, the failing input evaluated: on a fresh balancer over `A, B, C` the first
`2^63` selections return and leave the cursor at `minInt` (the `int` has wrapped);
there the index `roundRobinCount % len(servers)` is `-2`, outside `0 .. 2`, and the
next call panics with an index out of range. -/
theorem cursorIndex_negative_after_wrap :
    (∃ out, dispatches 0 9223372036854775808 (NewLoadBalancer "8080" [srvA, srvB, srvC])
        = .returned out ⟨"8080", minInt, [srvA, srvB, srvC]⟩) ∧
      Int.tmod minInt ([srvA, srvB, srvC].length : Int) = -2 ∧
      serverAtCursor ⟨"8080", minInt, [srvA, srvB, srvC]⟩
        = .error (.indexOutOfRange (-2) 3) ∧
      getNextAvailableServer 0 ⟨"8080", minInt, [srvA, srvB, srvC]⟩
        = .panicked (.indexOutOfRange (-2) 3) ⟨"8080", minInt, [srvA, srvB, srvC]⟩ := by
  refine ⟨?_, by decide, rfl, by decide⟩
  obtain ⟨out, hrun, _⟩ := dispatches_allAlive_from "8080" [srvA, srvB, srvC]
    (by decide) (by decide) 0 9223372036854775808 0 (by decide) (by decide)
  have hw : wrapInt ((0 + 9223372036854775808 : Nat) : Int) = minInt := by decide
  rw [hw] at hrun
  exact ⟨out, hrun⟩

/-! ## The skip loop (C10) -/

/-- With fewer iterations than not-alive targets ahead of the cursor the loop is
still running when the fuel is used up. -/
theorem skipLoop_spinning_natCast (port : String) (servers : List Server) :
    ∀ (fuel k c : Nat) (server : Server),
      (∀ j, j < k → ∃ s, servers[(c + j) % servers.length]? = some s ∧ s.IsAlive = false) →
      servers[c % servers.length]? = some server →
      fuel < k → ((c + fuel : Nat) : Int) ≤ maxInt →
      skipLoop fuel ⟨port, (c : Int), servers⟩ server
        = .spinning ⟨port, ((c + fuel : Nat) : Int), servers⟩ := by
  intro fuel
  induction fuel with
  | zero =>
    intro k c server hdead hcur hk _
    obtain ⟨s0, hs0, hs0dead⟩ := hdead 0 hk
    simp only [Nat.add_zero] at hs0
    have hs : server = s0 := by
      rw [hcur] at hs0
      exact Option.some.inj hs0
    subst hs
    unfold skipLoop
    simp [hs0dead]
  | succ fuel ih =>
    intro k c server hdead hcur hk hrange
    obtain ⟨s0, hs0, hs0dead⟩ := hdead 0 (by omega)
    simp only [Nat.add_zero] at hs0
    have hs : server = s0 := by
      rw [hcur] at hs0
      exact Option.some.inj hs0
    subst hs
    obtain ⟨next, hnext, _⟩ := hdead 1 (by omega)
    have hinc : incrementCursor ⟨port, (c : Int), servers⟩
        = ⟨port, ((c + 1 : Nat) : Int), servers⟩ :=
      incrementCursor_natCast port c servers (by push_cast at hrange ⊢; omega)
    unfold skipLoop
    simp only [hs0dead, Bool.false_eq_true, if_false, hinc,
      serverAtCursor_natCast port (c + 1) servers next hnext]
    have hstep := ih (k - 1) (c + 1) next
      (fun j hj => by
        obtain ⟨s, hs, hsd⟩ := hdead (j + 1) (by omega)
        refine ⟨s, ?_, hsd⟩
        rw [show c + 1 + j = c + (j + 1) by omega]
        exact hs)
      hnext (by omega)
      (by rw [show c + 1 + fuel = c + (fuel + 1) by omega]; exact hrange)
    rw [hstep, show c + 1 + fuel = c + (fuel + 1) by omega]

/-- C10, amended: for a non-empty target list with fixed liveness, entered at a
cursor `c` with `0 ≤ c` and `c + len(servers) ≤ maxInt` (a fresh balancer has `c = 0`):
with an alive target the call returns once the fuel covers the `k ≤ len - 1`
not-alive targets ahead of the cursor, it returns the first alive one, the cursor
has advanced by `k + 1`, and with fewer than `k` iterations the loop is still
running; with every target not-alive no amount of fuel, from any cursor value,
makes it return a target.  So it returns if and only if some target is alive. -/
theorem skipLoop_returns_iff_alive (port : String) (servers : List Server) (c : Nat)
    (hne : servers ≠ []) (hc : ((c + servers.length : Nat) : Int) ≤ maxInt) :
    ((∃ s ∈ servers, s.IsAlive = true) →
      ∃ (k : Nat) (a : Server), k ≤ servers.length - 1 ∧
        (∀ j, j < k → ∃ s, servers[(c + j) % servers.length]? = some s ∧ s.IsAlive = false) ∧
        servers[(c + k) % servers.length]? = some a ∧ a.IsAlive = true ∧
        (∀ fuel, k ≤ fuel → getNextAvailableServer fuel ⟨port, (c : Int), servers⟩
          = .returned a ⟨port, (c : Int) + ((k : Int) + 1), servers⟩) ∧
        (∀ fuel, fuel < k → getNextAvailableServer fuel ⟨port, (c : Int), servers⟩
          = .spinning ⟨port, (c : Int) + (fuel : Int), servers⟩)) ∧
    ((∀ s ∈ servers, s.IsAlive = false) →
      ∀ (cursor : Int) (fuel : Nat) (s : Server) (lb1 : LoadBalancer),
        getNextAvailableServer fuel ⟨port, cursor, servers⟩ ≠ .returned s lb1) ∧
    ((∃ fuel s lb1, getNextAvailableServer fuel ⟨port, (c : Int), servers⟩ = .returned s lb1)
      ↔ ∃ s ∈ servers, s.IsAlive = true) := by
  have hpos : 0 < servers.length := List.length_pos.mpr hne
  have hfirst : (∃ s ∈ servers, s.IsAlive = true) →
      ∃ (k : Nat) (a : Server), k ≤ servers.length - 1 ∧
        (∀ j, j < k → ∃ s, servers[(c + j) % servers.length]? = some s ∧ s.IsAlive = false) ∧
        servers[(c + k) % servers.length]? = some a ∧ a.IsAlive = true ∧
        (∀ fuel, k ≤ fuel → getNextAvailableServer fuel ⟨port, (c : Int), servers⟩
          = .returned a ⟨port, (c : Int) + ((k : Int) + 1), servers⟩) ∧
        (∀ fuel, fuel < k → getNextAvailableServer fuel ⟨port, (c : Int), servers⟩
          = .spinning ⟨port, (c : Int) + (fuel : Int), servers⟩) := by
    intro halive
    obtain ⟨k, a, hk, hdead, ha, haalive⟩ := exists_first_alive servers c halive
    have hrange : ((c + k : Nat) : Int) ≤ maxInt := by
      push_cast at hc ⊢
      omega
    refine ⟨k, a, by omega, hdead, ha, haalive, ?_, ?_⟩
    · intro fuel hfuel
      rw [getNextAvailableServer_natCast port servers a k fuel c hdead ha haalive hfuel hrange]
      have hw : wrapInt (((c + k : Nat) : Int) + 1) = (c : Int) + ((k : Int) + 1) := by
        rw [wrapInt_of_inRange]
        · push_cast; omega
        · unfold minInt; omega
        · push_cast at hc ⊢; omega
      rw [hw]
    · intro fuel hfuel
      obtain ⟨first, hfirst, _⟩ := hdead 0 (by omega)
      simp only [Nat.add_zero] at hfirst
      unfold getNextAvailableServer
      simp only [serverAtCursor_natCast port c servers first hfirst,
        skipLoop_spinning_natCast port servers fuel k c first hdead hfirst hfuel
          (by push_cast at hc ⊢; omega)]
      push_cast
      rfl
  have hdeadAll : (∀ s ∈ servers, s.IsAlive = false) →
      ∀ (cursor : Int) (fuel : Nat) (s : Server) (lb1 : LoadBalancer),
        getNextAvailableServer fuel ⟨port, cursor, servers⟩ ≠ .returned s lb1 := by
    intro hall cursor fuel s lb1 hret
    obtain ⟨h1, h2, _, _⟩ := getNextAvailableServer_returned fuel _ s lb1 hret
    have := hall s h2
    rw [h1] at this
    cases this
  refine ⟨hfirst, hdeadAll, ?_, ?_⟩
  · rintro ⟨fuel, s, lb1, hret⟩
    obtain ⟨h1, h2, _, _⟩ := getNextAvailableServer_returned fuel _ s lb1 hret
    exact ⟨s, h2, h1⟩
  · intro halive
    obtain ⟨k, a, _, _, _, _, hret, _⟩ := hfirst halive
    exact ⟨k, a, _, hret k (Nat.le_refl k)⟩

/-- C10, witness: `A, B, C` with `B` not-alive, cursor 1: one target is skipped and
the cursor advances by 2. -/
theorem skipLoop_returns_iff_alive_witness :
    getNextAvailableServer 1 ⟨"8080", 1, [srvA, deadB, srvC]⟩
        = .returned srvC ⟨"8080", 3, [srvA, deadB, srvC]⟩ ∧
      ((∃ fuel s lb1, getNextAvailableServer fuel ⟨"8080", ((1 : Nat) : Int), [srvA, deadB, srvC]⟩
          = .returned s lb1)
        ↔ ∃ s ∈ [srvA, deadB, srvC], s.IsAlive = true) :=
  ⟨by decide,
    (skipLoop_returns_iff_alive "8080" [srvA, deadB, srvC] 1 (by decide) (by decide)).2.2⟩

/-- C10, counterexample to the form without a bound on the cursor: at cursor
`maxInt` over `A, B, C` with `B` not-alive there are alive targets, but the loop
skips `B`, the cursor wraps to `minInt`, the index is `-2` and the call panics: no
amount of fuel makes it return a target. -/
theorem skipLoop_wrapped_cursor :
    (∃ s ∈ [srvA, deadB, srvC], s.IsAlive = true) ∧
      getNextAvailableServer 0 ⟨"8080", maxInt, [srvA, deadB, srvC]⟩
        = .spinning ⟨"8080", maxInt, [srvA, deadB, srvC]⟩ ∧
      ∀ fuel, getNextAvailableServer (fuel + 1) ⟨"8080", maxInt, [srvA, deadB, srvC]⟩
        = .panicked (.indexOutOfRange (-2) 3) ⟨"8080", minInt, [srvA, deadB, srvC]⟩ := by
  refine ⟨by decide, by decide, ?_⟩
  intro fuel
  have hfirst : serverAtCursor ⟨"8080", maxInt, [srvA, deadB, srvC]⟩ = .ok deadB := rfl
  have hinc : incrementCursor ⟨"8080", maxInt, [srvA, deadB, srvC]⟩
      = ⟨"8080", minInt, [srvA, deadB, srvC]⟩ := by decide
  have hnext : serverAtCursor ⟨"8080", minInt, [srvA, deadB, srvC]⟩
      = .error (.indexOutOfRange (-2) 3) := rfl
  have hloop : skipLoop (fuel + 1) ⟨"8080", maxInt, [srvA, deadB, srvC]⟩ deadB
      = .panicked (.indexOutOfRange (-2) 3) ⟨"8080", minInt, [srvA, deadB, srvC]⟩ := by
    rw [skipLoop]
    simp only [hinc, hnext]
    rfl
  simp only [getNextAvailableServer, hfirst, hloop]

/-! ## `serveProxy` (C7) -/

/-- C7, amended: for every balancer state with at least one alive target whose
cursor `c` satisfies `0 ≤ c` and `c + len(servers) ≤ maxInt`, one call of
`serveProxy` performs exactly one selection (the state it ends in is the state
after one `getNextAvailableServer`), prints the record carrying the selected
target's `Address()` first, and then calls `Serve` exactly once, on that selected
target; the trace has these two events and no others whether `Serve` returns or
panics. -/
theorem serveProxy_selects_once (port : String) (servers : List Server) (c fuel : Nat)
    (Serve : Server → Option Panic)
    (halive : ∃ s ∈ servers, s.IsAlive = true)
    (hc : ((c + servers.length : Nat) : Int) ≤ maxInt) (hfuel : servers.length ≤ fuel) :
    ∃ (target : Server) (lb1 : LoadBalancer),
      getNextAvailableServer fuel ⟨port, (c : Int), servers⟩ = .returned target lb1 ∧
      target ∈ servers ∧ target.IsAlive = true ∧
      (serveProxy fuel Serve ⟨port, (c : Int), servers⟩).1
        = [Event.printf "Forwarding request to address %q\n" target.Address,
            Event.serve target] ∧
      (serveProxy fuel Serve ⟨port, (c : Int), servers⟩).2
        = (match Serve target with
            | none => .returned () lb1
            | some p => .panicked p lb1) := by
  obtain ⟨k, a, hk, hdead, ha, haalive⟩ := exists_first_alive servers c halive
  have hrange : ((c + k : Nat) : Int) ≤ maxInt := by
    push_cast at hc ⊢
    omega
  have hsel := getNextAvailableServer_natCast port servers a k fuel c hdead ha haalive
    (by omega) hrange
  refine ⟨a, _, hsel, List.getElem?_mem ha, haalive, ?_, ?_⟩
  · cases hS : Serve a <;> simp [serveProxy, hsel, hS]
  · cases hS : Serve a <;> simp [serveProxy, hsel, hS]

/-- C7, witness: `A, B, C` with `B` not-alive, cursor 1, a forward that panics:
`C` is selected, logged and served once, and nothing else happens. -/
theorem serveProxy_selects_once_witness :
    serveProxy 3 (fun _ => some Panic.serveAborted) ⟨"8080", 1, [srvA, deadB, srvC]⟩
        = ([Event.printf "Forwarding request to address %q\n" "C", Event.serve srvC],
            .panicked Panic.serveAborted ⟨"8080", 3, [srvA, deadB, srvC]⟩) ∧
      ∃ (target : Server) (lb1 : LoadBalancer),
        getNextAvailableServer 3 ⟨"8080", ((1 : Nat) : Int), [srvA, deadB, srvC]⟩
          = .returned target lb1 ∧
        target ∈ [srvA, deadB, srvC] ∧ target.IsAlive = true ∧
        (serveProxy 3 (fun _ => some Panic.serveAborted)
            ⟨"8080", ((1 : Nat) : Int), [srvA, deadB, srvC]⟩).1
          = [Event.printf "Forwarding request to address %q\n" target.Address,
              Event.serve target] ∧
        (serveProxy 3 (fun _ => some Panic.serveAborted)
            ⟨"8080", ((1 : Nat) : Int), [srvA, deadB, srvC]⟩).2
          = (match (fun _ => some Panic.serveAborted) target with
              | none => .returned () lb1
              | some p => .panicked p lb1) :=
  ⟨by decide,
    serveProxy_selects_once "8080" [srvA, deadB, srvC] 1 3 (fun _ => some Panic.serveAborted)
      (by decide) (by decide) (by decide)⟩

/-- C7, counterexample to the unrestricted form: the state with cursor `minInt`
(reached after `2^63` selections) over the alive targets `A, B, C` has an alive
target, yet `serveProxy` panics in the selection: nothing is logged and `Serve` is
not called. -/
theorem serveProxy_wrapped_cursor :
    (∃ s ∈ [srvA, srvB, srvC], s.IsAlive = true) ∧
      serveProxy 3 (fun _ => none) ⟨"8080", minInt, [srvA, srvB, srvC]⟩
        = ([], .panicked (.indexOutOfRange (-2) 3) ⟨"8080", minInt, [srvA, srvB, srvC]⟩) := by
  decide

/-! ## Counting live positions -/

theorem aliveBefore_succ (l : List Server) (p : Nat) (s : Server)
    (hs : l[p % l.length]? = some s) :
    aliveBefore l (p + 1) = aliveBefore l p + (if s.IsAlive then 1 else 0) := by
  have hr : p % l.length < l.length := (List.getElem?_eq_some_iff.mp hs).1
  have hpos : 0 < l.length := by omega
  have hp := Nat.div_add_mod p l.length
  have htake : (l.take (p % l.length + 1)).filter (fun s => s.IsAlive)
      = (l.take (p % l.length)).filter (fun s => s.IsAlive)
        ++ (if s.IsAlive then [s] else []) := by
    rw [List.take_succ, hs, List.filter_append]
    cases hsa : s.IsAlive <;> simp [hsa]
  unfold aliveBefore
  by_cases hlast : p % l.length + 1 < l.length
  · have hdiv : (p + 1) / l.length = p / l.length := by
      rw [show p + 1 = (p % l.length + 1) + l.length * (p / l.length) by omega,
        Nat.add_mul_div_left _ _ hpos, Nat.div_eq_of_lt hlast, Nat.zero_add]
    have hmod : (p + 1) % l.length = p % l.length + 1 := by
      rw [show p + 1 = (p % l.length + 1) + l.length * (p / l.length) by omega,
        Nat.add_mul_mod_self_left, Nat.mod_eq_of_lt hlast]
    rw [hdiv, hmod, htake, List.length_append]
    cases hsa : s.IsAlive <;> simp [Nat.add_assoc]
  · have hr1 : p % l.length + 1 = l.length := by omega
    have hsucc : p + 1 = l.length * (p / l.length + 1) := by
      rw [Nat.mul_add, Nat.mul_one]
      omega
    have hdiv : (p + 1) / l.length = p / l.length + 1 := by
      rw [hsucc, Nat.mul_div_cancel_left _ hpos]
    have hmod : (p + 1) % l.length = 0 := by
      rw [hsucc, Nat.mul_mod_right]
    have hfull : (l.filter (fun s => s.IsAlive)).length
        = ((l.take (p % l.length)).filter (fun s => s.IsAlive)).length
          + (if s.IsAlive then 1 else 0) := by
      have h1 : l.take (p % l.length + 1) = l := by
        rw [hr1]
        exact List.take_length l
      have h2 := congrArg List.length htake
      rw [h1, List.length_append] at h2
      rw [h2]
      cases hsa : s.IsAlive <;> simp
    rw [hdiv, hmod, List.take_zero, List.filter_nil, List.length_nil, Nat.add_zero,
      Nat.mul_add, Nat.mul_one]
    omega

/-- Not-alive positions do not change the count. -/
theorem aliveBefore_skip (l : List Server) (c : Nat) :
    ∀ k : Nat,
      (∀ j, j < k → ∃ s, l[(c + j) % l.length]? = some s ∧ s.IsAlive = false) →
      aliveBefore l (c + k) = aliveBefore l c := by
  intro k
  induction k with
  | zero =>
    intro _
    rfl
  | succ k ih =>
    intro hdead
    obtain ⟨s, hs, hsd⟩ := hdead k (Nat.lt_succ_self k)
    rw [show c + (k + 1) = c + k + 1 by omega, aliveBefore_succ l (c + k) s hs,
      ih (fun j hj => hdead j (by omega)), hsd]
    simp

/-- A position with `i` live positions before it lies in pass number `i / m` over
the slice at the latest, `m` being the number of live targets. -/
theorem lt_of_aliveBefore_eq (l : List Server) (p i : Nat)
    (hm : 0 < (l.filter (fun s => s.IsAlive)).length) (hl : 0 < l.length)
    (h : aliveBefore l p = i) :
    p < l.length * (i / (l.filter (fun s => s.IsAlive)).length + 1) := by
  have h1 : (l.filter (fun s => s.IsAlive)).length * (p / l.length) ≤ i := by
    unfold aliveBefore at h
    omega
  have h2 : p / l.length ≤ i / (l.filter (fun s => s.IsAlive)).length := by
    rw [Nat.le_div_iff_mul_le hm, Nat.mul_comm]
    exact h1
  have h3 : p < l.length * (p / l.length + 1) := Nat.lt_mul_div_succ p hl
  calc p < l.length * (p / l.length + 1) := h3
    _ ≤ l.length * (i / (l.filter (fun s => s.IsAlive)).length + 1) :=
      Nat.mul_le_mul_left _ (by omega)

/-! ## Round robin with not-alive targets (C2) -/

/-- A list with a live target splits at its first live target. -/
theorem exists_split_first_alive (r : List Server) (h : ∃ s ∈ r, s.IsAlive = true) :
    ∃ (p : List Server) (a : Server) (t : List Server),
      r = p ++ a :: t ∧ (∀ s ∈ p, s.IsAlive = false) ∧ a.IsAlive = true := by
  induction r with
  | nil =>
    obtain ⟨s, hs, _⟩ := h
    cases hs
  | cons x r ih =>
    by_cases hx : x.IsAlive = true
    · exact ⟨[], x, r, rfl, by simp, hx⟩
    · have hrest : ∃ s ∈ r, s.IsAlive = true := by
        obtain ⟨s, hs, hsa⟩ := h
        rcases List.mem_cons.mp hs with hsx | hsr
        · subst hsx
          exact absurd hsa hx
        · exact ⟨s, hsr, hsa⟩
      obtain ⟨p, a, t, hsplit, hp, ha⟩ := ih hrest
      refine ⟨x :: p, a, t, by rw [hsplit]; rfl, ?_, ha⟩
      intro s hs
      rcases List.mem_cons.mp hs with hsx | hsp
      · subst hsx
        simpa using hx
      · exact hp s hsp

/-- The slice read cyclically from position `c` is the slice rotated by `c`. -/
theorem getElem?_cyclic_eq_rotate (l : List Server) (c j : Nat) (hj : j < l.length) :
    l[(c + j) % l.length]? = (l.rotate c)[j]? := by
  rw [List.getElem?_rotate hj, Nat.add_comm]

theorem filter_alive_split (p : List Server) (a : Server) (t : List Server)
    (hp : ∀ s ∈ p, s.IsAlive = false) (ha : a.IsAlive = true) :
    (p ++ a :: t).filter (fun s => s.IsAlive) = a :: t.filter (fun s => s.IsAlive) ∧
      (t ++ (p ++ [a])).filter (fun s => s.IsAlive) = t.filter (fun s => s.IsAlive) ++ [a] := by
  have hpnil : p.filter (fun s => s.IsAlive) = [] := by
    rw [List.filter_eq_nil_iff]
    intro s hs
    simp [hp s hs]
  constructor
  · rw [List.filter_append, hpnil, List.nil_append, List.filter_cons_of_pos ha]
  · rw [List.filter_append, List.filter_append, hpnil, List.nil_append]
    simp [ha]

/-- The split of the rotated slice, read back as positions of the slice. -/
theorem cyclic_of_rotate_split (l : List Server) (c : Nat)
    (p : List Server) (a : Server) (t : List Server)
    (hsplit : l.rotate c = p ++ a :: t) (hp : ∀ s ∈ p, s.IsAlive = false) :
    p.length + 1 ≤ l.length ∧
      (∀ j, j < p.length → ∃ s, l[(c + j) % l.length]? = some s ∧ s.IsAlive = false) ∧
      l[(c + p.length) % l.length]? = some a := by
  have hlen : l.length = p.length + (t.length + 1) := by
    have := congrArg List.length hsplit
    simpa using this
  refine ⟨by omega, ?_, ?_⟩
  · intro j hj
    have hjl : j < l.length := by omega
    refine ⟨p[j], ?_, hp _ (List.getElem_mem _)⟩
    rw [getElem?_cyclic_eq_rotate l c j hjl, hsplit, List.getElem?_append_left hj,
      List.getElem?_eq_getElem hj]
  · rw [getElem?_cyclic_eq_rotate l c p.length (by omega), hsplit,
      List.getElem?_append_right (Nat.le_refl _)]
    simp

/-- One call seen through the rotated slice: if the slice rotated by the cursor is
`p ++ a :: t` with `p` not alive and `a` alive, the call returns `a`, advances the
cursor by `|p| + 1`, and the slice rotated by the new cursor is `t ++ p ++ [a]`. -/
theorem getNextAvailableServer_rotate (port : String) (l : List Server) (c fuel : Nat)
    (p : List Server) (a : Server) (t : List Server)
    (hsplit : l.rotate c = p ++ a :: t)
    (hp : ∀ s ∈ p, s.IsAlive = false) (ha : a.IsAlive = true)
    (hfuel : p.length ≤ fuel) (hrange : ((c + p.length : Nat) : Int) ≤ maxInt) :
    getNextAvailableServer fuel ⟨port, (c : Int), l⟩
        = .returned a ⟨port, wrapInt (((c + p.length : Nat) : Int) + 1), l⟩ ∧
      l.rotate (c + p.length + 1) = t ++ (p ++ [a]) := by
  obtain ⟨_, hdead, hat⟩ := cyclic_of_rotate_split l c p a t hsplit hp
  refine ⟨getNextAvailableServer_natCast port l a p.length fuel c hdead hat ha hfuel hrange, ?_⟩
  rw [show c + p.length + 1 = c + (p.length + 1) by omega, ← List.rotate_rotate, hsplit]
  have hassoc : p ++ a :: t = (p ++ [a]) ++ t := by simp
  rw [hassoc]
  have hl : (p ++ [a]).length = p.length + 1 := by simp
  rw [← hl, List.rotate_append_length_eq]

/-- Sequential calls, by induction on their number.  Invariants before call `i`:
the live targets of the slice rotated by the cursor are the live targets of the
slice rotated by `i`, and `i` live positions lie before the cursor.  Call `i`
stays inside pass `i / m` over the slice, so it is enough that this pass ends
within the `int` range. -/
theorem dispatches_skipDead_from (port : String) (l : List Server)
    (halive : ∃ s ∈ l, s.IsAlive = true) (fuel : Nat) (hfuel : l.length - 1 ≤ fuel) :
    ∀ (N c i : Nat), aliveBefore l c = i →
      (∀ j, j < N →
        l.length * ((i + j) / (l.filter (fun s => s.IsAlive)).length + 1)
          ≤ 9223372036854775808) →
      (l.rotate c).filter (fun s => s.IsAlive) = (l.filter (fun s => s.IsAlive)).rotate i →
      ∃ out lb1, dispatches fuel N ⟨port, (c : Int), l⟩ = .returned out lb1 ∧
        out.map some = (List.range N).map (fun j =>
          (l.filter (fun s => s.IsAlive))[(i + j) % (l.filter (fun s => s.IsAlive)).length]?) := by
  intro N
  induction N with
  | zero =>
    intro c i _ _ _
    exact ⟨[], _, rfl, by simp⟩
  | succ N ih =>
    intro c i hcnt hN hinv
    have hview : ∃ s ∈ l.rotate c, s.IsAlive = true := by
      obtain ⟨s, hs, hsa⟩ := halive
      exact ⟨s, List.mem_rotate.mpr hs, hsa⟩
    obtain ⟨p, a, t, hsplit, hp, ha⟩ := exists_split_first_alive (l.rotate c) hview
    obtain ⟨hk, hdead, hat⟩ := cyclic_of_rotate_split l c p a t hsplit hp
    obtain ⟨hf1, hf2⟩ := filter_alive_split p a t hp ha
    have hA : (l.filter (fun s => s.IsAlive)).rotate i = a :: t.filter (fun s => s.IsAlive) := by
      rw [← hinv, hsplit, hf1]
    have hApos : 0 < (l.filter (fun s => s.IsAlive)).length := by
      have := congrArg List.length hA
      simp only [List.length_rotate, List.length_cons] at this
      omega
    have hlpos : 0 < l.length := by omega
    have hcnt1 : aliveBefore l (c + p.length) = i := by
      rw [aliveBefore_skip l c p.length hdead, hcnt]
    have hcnt2 : aliveBefore l (c + p.length + 1) = i + 1 := by
      rw [aliveBefore_succ l (c + p.length) a hat, hcnt1, ha]
      simp
    have hlt1 := lt_of_aliveBefore_eq l (c + p.length) i hApos hlpos hcnt1
    have hb0 : l.length * (i / (l.filter (fun s => s.IsAlive)).length + 1)
        ≤ 9223372036854775808 := hN 0 (Nat.succ_pos N)
    have hrange : ((c + p.length : Nat) : Int) ≤ maxInt := by
      unfold maxInt
      omega
    obtain ⟨hcall, hrot⟩ := getNextAvailableServer_rotate port l c fuel p a t hsplit hp ha
      (by omega) hrange
    have hhead : (l.filter (fun s => s.IsAlive))[i % (l.filter (fun s => s.IsAlive)).length]?
        = some a := by
      have h0 := List.getElem?_rotate (l := l.filter (fun s => s.IsAlive)) (n := i) hApos
      rw [Nat.zero_add, hA] at h0
      rw [← h0]
      simp
    have hrange1 : List.map (fun j =>
          (l.filter (fun s => s.IsAlive))[(i + j) % (l.filter (fun s => s.IsAlive)).length]?)
          (List.range (N + 1))
        = some a :: List.map (fun j =>
          (l.filter (fun s => s.IsAlive))[(i + 1 + j) % (l.filter (fun s => s.IsAlive)).length]?)
          (List.range N) := by
      rw [List.range_succ_eq_map, List.map_cons, List.map_map, Nat.add_zero, hhead]
      congr 1
      apply List.map_congr_left
      intro j _
      simp only [Function.comp, Nat.succ_eq_add_one]
      rw [show i + 1 + j = i + (j + 1) by omega]
    cases N with
    | zero =>
      refine ⟨[a], ⟨port, wrapInt (((c + p.length : Nat) : Int) + 1), l⟩, ?_, ?_⟩
      · simp only [dispatches, hcall]
      · rw [hrange1]
        simp
    | succ M =>
      have hlt2 := lt_of_aliveBefore_eq l (c + p.length + 1) (i + 1) hApos hlpos hcnt2
      have hb1 := hN 1 (by omega)
      have hnext : c + p.length + 1 ≤ 9223372036854775807 := by omega
      have hnextInt : ((c + p.length + 1 : Nat) : Int) ≤ maxInt := by
        unfold maxInt
        omega
      have hbound : ∀ j, j < M + 1 →
          l.length * ((i + 1 + j) / (l.filter (fun s => s.IsAlive)).length + 1)
            ≤ 9223372036854775808 := by
        intro j hj
        have := hN (j + 1) (by omega)
        rw [show i + (j + 1) = i + 1 + j by omega] at this
        exact this
      have hinv1 : (l.rotate (c + p.length + 1)).filter (fun s => s.IsAlive)
          = (l.filter (fun s => s.IsAlive)).rotate (i + 1) := by
        rw [hrot, hf2, ← List.rotate_rotate, hA, List.rotate_cons_succ, List.rotate_zero]
      have hw : wrapInt (((c + p.length : Nat) : Int) + 1) = ((c + p.length + 1 : Nat) : Int) := by
        have := wrapInt_natCast (c + p.length + 1) hnextInt
        push_cast at this ⊢
        exact this
      obtain ⟨rest, lb2, hrest, hmap⟩ := ih (c + p.length + 1) (i + 1) hcnt2 hbound hinv1
      refine ⟨a :: rest, lb2, ?_, ?_⟩
      · rw [dispatches]
        simp only [hcall, hw, hrest]
      · rw [hrange1, List.map_cons, hmap]

/-- C2, amended: for every target list with fixed liveness and at least one alive
target, and every `N` with `⌈N / len(alive)⌉ * len(servers) ≤ 2^63` (written
`((N - 1) / len(alive) + 1) * len(servers)`; the passes over the list that `N`
calls need stay within the range of the cursor), `N` sequential calls on a fresh
balancer all return, never return a target that reports not-alive, and the `i`-th
call returns `alive[i mod len(alive)]`, where `alive` is the sublist of alive
targets in list order. -/
theorem roundRobin_skipsDead (port : String) (servers : List Server) (N fuel : Nat)
    (halive : ∃ s ∈ servers, s.IsAlive = true)
    (hN : ((N - 1) / (servers.filter (fun s => s.IsAlive)).length + 1) * servers.length
      ≤ 9223372036854775808)
    (hfuel : servers.length - 1 ≤ fuel) :
    ∃ out lb1, dispatches fuel N (NewLoadBalancer port servers) = .returned out lb1 ∧
      out.length = N ∧ (∀ s ∈ out, s.IsAlive = true) ∧
      ∀ i, i < N → out[i]? = (servers.filter (fun s => s.IsAlive))[
        i % (servers.filter (fun s => s.IsAlive)).length]? := by
  have hbound : ∀ j, j < N →
      servers.length * ((0 + j) / (servers.filter (fun s => s.IsAlive)).length + 1)
        ≤ 9223372036854775808 := by
    intro j hj
    have hdiv : j / (servers.filter (fun s => s.IsAlive)).length
        ≤ (N - 1) / (servers.filter (fun s => s.IsAlive)).length :=
      Nat.div_le_div_right (by omega)
    calc servers.length * ((0 + j) / (servers.filter (fun s => s.IsAlive)).length + 1)
        = (j / (servers.filter (fun s => s.IsAlive)).length + 1) * servers.length := by
          rw [Nat.zero_add, Nat.mul_comm]
      _ ≤ ((N - 1) / (servers.filter (fun s => s.IsAlive)).length + 1) * servers.length :=
          Nat.mul_le_mul_right _ (by omega)
      _ ≤ 9223372036854775808 := hN
  obtain ⟨out, lb1, hrun, hmap⟩ := dispatches_skipDead_from port servers halive fuel hfuel N 0 0
    (by simp [aliveBefore]) hbound (by rw [List.rotate_zero, List.rotate_zero])
  simp only [Nat.zero_add] at hmap
  obtain ⟨hlen, hget⟩ := getElem?_of_map_some_eq out N _ hmap
  refine ⟨out, lb1, hrun, hlen, ?_, hget⟩
  intro s hs
  obtain ⟨i, hi⟩ := List.mem_iff_getElem?.mp hs
  have hiN : i < N := by
    rw [← hlen]
    exact (List.getElem?_eq_some_iff.mp hi).1
  rw [hget i hiN] at hi
  have hmem := List.getElem?_mem hi
  simpa using (List.mem_filter.mp hmem).2

/-- C2, witness: targets `A, B, C` with `B` not-alive, three dispatches select
`A, C, A`. -/
theorem roundRobin_skipsDead_witness :
    dispatches 2 3 (NewLoadBalancer "8080" [srvA, deadB, srvC])
        = .returned [srvA, srvC, srvA] ⟨"8080", 4, [srvA, deadB, srvC]⟩ ∧
      ∃ out lb1, dispatches 2 3 (NewLoadBalancer "8080" [srvA, deadB, srvC])
          = .returned out lb1 ∧
        out.length = 3 ∧ (∀ s ∈ out, s.IsAlive = true) ∧
        ∀ i, i < 3 → out[i]? = ([srvA, deadB, srvC].filter (fun s => s.IsAlive))[
          i % ([srvA, deadB, srvC].filter (fun s => s.IsAlive)).length]? :=
  ⟨by decide,
    roundRobin_skipsDead "8080" [srvA, deadB, srvC] 3 2 (by decide) (by decide) (by decide)⟩

/-- Over `A, B, C` with `B` not-alive, two calls from cursor `3j` return `A, C` and
leave the cursor at `3(j+1)`. -/
theorem dispatches_two_skipB (fuel j : Nat) (hfuel : 1 ≤ fuel)
    (hj : 3 * j + 3 ≤ 9223372036854775807) :
    dispatches fuel 2 ⟨"8080", ((3 * j : Nat) : Int), [srvA, deadB, srvC]⟩
      = .returned [srvA, srvC] ⟨"8080", ((3 * (j + 1) : Nat) : Int), [srvA, deadB, srvC]⟩ := by
  have h1 := getNextAvailableServer_natCast "8080" [srvA, deadB, srvC] srvA 0 fuel (3 * j)
    (fun i hi => absurd hi (Nat.not_lt_zero i))
    (by
      have : (3 * j + 0) % [srvA, deadB, srvC].length = 0 := by
        simp [Nat.mul_mod_right]
      rw [this]
      rfl)
    rfl (Nat.zero_le _) (by unfold maxInt; omega)
  have hw1 : wrapInt (((3 * j + 0 : Nat) : Int) + 1) = ((3 * j + 1 : Nat) : Int) := by
    have := wrapInt_natCast (3 * j + 1) (by unfold maxInt; omega)
    push_cast at this ⊢
    exact this
  rw [hw1] at h1
  have h2 := getNextAvailableServer_natCast "8080" [srvA, deadB, srvC] srvC 1 fuel (3 * j + 1)
    (fun i hi => by
      have hi0 : i = 0 := by omega
      subst hi0
      refine ⟨deadB, ?_, rfl⟩
      have : (3 * j + 1 + 0) % [srvA, deadB, srvC].length = 1 := by
        simp [Nat.mul_add_mod]
      rw [this]
      rfl)
    (by
      have : (3 * j + 1 + 1) % [srvA, deadB, srvC].length = 2 := by
        simp only [List.length_cons, List.length_nil]
        omega
      rw [this]
      rfl)
    rfl hfuel (by unfold maxInt; omega)
  have hw2 : wrapInt (((3 * j + 1 + 1 : Nat) : Int) + 1) = ((3 * (j + 1) : Nat) : Int) := by
    have := wrapInt_natCast (3 * (j + 1)) (by unfold maxInt; omega)
    rw [← this]
    congr 1
  rw [hw2] at h2
  simp only [dispatches, h1, h2]

/-- Over `A, B, C` with `B` not-alive, `2j` calls on the fresh balancer return and
leave the cursor at `3j`. -/
theorem dispatches_even_skipB (fuel : Nat) (hfuel : 1 ≤ fuel) :
    ∀ j : Nat, 3 * j ≤ 9223372036854775807 →
      ∃ out, dispatches fuel (2 * j) (NewLoadBalancer "8080" [srvA, deadB, srvC])
        = .returned out ⟨"8080", ((3 * j : Nat) : Int), [srvA, deadB, srvC]⟩ := by
  intro j
  induction j with
  | zero =>
    intro _
    exact ⟨[], rfl⟩
  | succ j ih =>
    intro hj
    obtain ⟨out, hout⟩ := ih (by omega)
    refine ⟨out ++ [srvA, srvC], ?_⟩
    rw [show 2 * (j + 1) = 2 * j + 2 by ring, dispatches_add, hout]
    simp only [dispatches_two_skipB fuel j hfuel (by omega)]

/-- C2, counterexample to the unbounded form: over `A, B, C` with `B` not-alive the
cursor reaches `maxInt` after `6148914691236517205` calls; the next call (number
`6148914691236517205`, counting from 0) skips `B`, wraps the cursor to `minInt`,
computes index `-2` and panics, where the claim has it return `alive[1] = C`. -/
theorem roundRobin_skipsDead_overflow :
    dispatches 2 (2 * 3074457345618258602 + 2) (NewLoadBalancer "8080" [srvA, deadB, srvC])
      = .panicked (.indexOutOfRange (-2) 3) ⟨"8080", minInt, [srvA, deadB, srvC]⟩ := by
  obtain ⟨out, hout⟩ := dispatches_even_skipB 2 (by decide) 3074457345618258602 (by decide)
  have hcur : ((3 * 3074457345618258602 : Nat) : Int) = 9223372036854775806 := by decide
  rw [hcur] at hout
  rw [dispatches_add, hout]
  have hlast : dispatches 2 2 ⟨"8080", 9223372036854775806, [srvA, deadB, srvC]⟩
      = .panicked (.indexOutOfRange (-2) 3) ⟨"8080", minInt, [srvA, deadB, srvC]⟩ := by decide
  simp only [hlast]

/-! ## Fairness of sequential dispatch (C6) -/

theorem serverAtCursor_getElem (lb : LoadBalancer) (s : Server)
    (h : serverAtCursor lb = .ok s) :
    lb.servers[(Int.tmod lb.roundRobinCount lb.servers.length).toNat]? = some s := by
  unfold serverAtCursor at h
  split at h
  · cases h
  · simp only at h
    split at h
    · cases h
    · split at h
      · rename_i server hget
        cases h
        exact hget
      · cases h

/-- When the skip loop returns, the server it hands back is the one the index
expression yields in the state it stops in. -/
theorem skipLoop_returned_at (fuel : Nat) :
    ∀ (lb : LoadBalancer) (server s : Server) (lb1 : LoadBalancer),
      serverAtCursor lb = .ok server → skipLoop fuel lb server = .returned s lb1 →
      serverAtCursor lb1 = .ok s := by
  induction fuel with
  | zero =>
    intro lb server s lb1 hat h
    unfold skipLoop at h
    by_cases halive : server.IsAlive = true
    · simp only [halive, if_true, Outcome.returned.injEq] at h
      obtain ⟨hs, hlb⟩ := h
      subst hs hlb
      exact hat
    · simp [halive] at h
  | succ fuel ih =>
    intro lb server s lb1 hat h
    unfold skipLoop at h
    by_cases halive : server.IsAlive = true
    · simp only [halive, if_true, Outcome.returned.injEq] at h
      obtain ⟨hs, hlb⟩ := h
      subst hs hlb
      exact hat
    · simp only [halive, Bool.false_eq_true, if_false] at h
      cases hnext : serverAtCursor (incrementCursor lb) with
      | error p => simp [hnext] at h
      | ok next =>
        simp only [hnext] at h
        exact ih _ _ _ _ hnext h

/-- The ghost index is the index of the returned server: whenever
`getNextAvailableServer` returns `s`, `getNextAvailableIndex` returns, in the same
end state, an index `j` with `servers[j] = s`; and in every other case the two end
alike. -/
theorem getNextAvailableIndex_spec (fuel : Nat) (lb : LoadBalancer) :
    (∀ s lb1, getNextAvailableServer fuel lb = .returned s lb1 →
      ∃ j, getNextAvailableIndex fuel lb = .returned j lb1 ∧ lb.servers[j]? = some s) ∧
    (∀ p lb1, getNextAvailableServer fuel lb = .panicked p lb1 →
      getNextAvailableIndex fuel lb = .panicked p lb1) ∧
    (∀ lb1, getNextAvailableServer fuel lb = .spinning lb1 →
      getNextAvailableIndex fuel lb = .spinning lb1) := by
  cases hfirst : serverAtCursor lb with
  | error p =>
    have h1 : getNextAvailableServer fuel lb = .panicked p lb := by
      simp only [getNextAvailableServer, hfirst]
    have h2 : getNextAvailableIndex fuel lb = .panicked p lb := by
      simp only [getNextAvailableIndex, hfirst]
    rw [h1, h2]
    refine ⟨?_, ?_, ?_⟩
    · intro s lb1 h
      cases h
    · intro p1 lb1 h
      cases h
      rfl
    · intro lb1 h
      cases h
  | ok first =>
    cases hloop : skipLoop fuel lb first with
    | returned server lb2 =>
      have h1 : getNextAvailableServer fuel lb = .returned server (incrementCursor lb2) := by
        simp only [getNextAvailableServer, hfirst, hloop]
      have h2 : getNextAvailableIndex fuel lb
          = .returned (Int.tmod lb2.roundRobinCount lb2.servers.length).toNat
              (incrementCursor lb2) := by
        simp only [getNextAvailableIndex, hfirst, hloop]
      rw [h1, h2]
      refine ⟨?_, ?_, ?_⟩
      · intro s lb1 h
        simp only [Outcome.returned.injEq] at h
        obtain ⟨hs, hlb⟩ := h
        subst hs hlb
        refine ⟨_, rfl, ?_⟩
        have hat := skipLoop_returned_at fuel lb first server lb2 hfirst hloop
        have hget := serverAtCursor_getElem lb2 server hat
        obtain ⟨_, _, hsame, _⟩ := skipLoop_returned fuel lb first server lb2 hloop
        rw [hsame] at hget ⊢
        exact hget
      · intro p lb1 h
        cases h
      · intro lb1 h
        cases h
    | panicked p lb2 =>
      have h1 : getNextAvailableServer fuel lb = .panicked p lb2 := by
        simp only [getNextAvailableServer, hfirst, hloop]
      have h2 : getNextAvailableIndex fuel lb = .panicked p lb2 := by
        simp only [getNextAvailableIndex, hfirst, hloop]
      rw [h1, h2]
      refine ⟨?_, ?_, ?_⟩
      · intro s lb1 h
        cases h
      · intro p1 lb1 h
        cases h
        rfl
      · intro lb1 h
        cases h
    | spinning lb2 =>
      have h1 : getNextAvailableServer fuel lb = .spinning lb2 := by
        simp only [getNextAvailableServer, hfirst, hloop]
      have h2 : getNextAvailableIndex fuel lb = .spinning lb2 := by
        simp only [getNextAvailableIndex, hfirst, hloop]
      rw [h1, h2]
      refine ⟨?_, ?_, ?_⟩
      · intro s lb1 h
        cases h
      · intro p1 lb1 h
        cases h
      · intro lb1 h
        cases h
        rfl

/-- One call from a non-negative cursor `c`, in the situation of
`getNextAvailableServer_natCast`: the index selected is `(c + k) mod len`. -/
theorem getNextAvailableIndex_natCast (port : String) (servers : List Server) (a : Server)
    (k fuel c : Nat)
    (hdead : ∀ j, j < k → ∃ s, servers[(c + j) % servers.length]? = some s ∧ s.IsAlive = false)
    (ha : servers[(c + k) % servers.length]? = some a) (halive : a.IsAlive = true)
    (hfuel : k ≤ fuel) (hrange : ((c + k : Nat) : Int) ≤ maxInt) :
    getNextAvailableIndex fuel ⟨port, (c : Int), servers⟩
      = .returned ((c + k) % servers.length)
          ⟨port, wrapInt (((c + k : Nat) : Int) + 1), servers⟩ := by
  obtain ⟨first, hfirst⟩ : ∃ s, servers[c % servers.length]? = some s := by
    cases k with
    | zero => exact ⟨a, ha⟩
    | succ k1 =>
      obtain ⟨s1, hs1, _⟩ := hdead 0 (by omega)
      exact ⟨s1, hs1⟩
  unfold getNextAvailableIndex
  simp only [serverAtCursor_natCast port c servers first hfirst,
    skipLoop_natCast port servers a k fuel c first hdead ha halive hfirst hfuel hrange]
  have hmod : Int.tmod ((c + k : Nat) : Int) (servers.length : Int)
      = (((c + k) % servers.length : Nat) : Int) :=
    (Int.ofNat_tmod (c + k) servers.length).symm
  simp only [hmod, Int.toNat_ofNat]
  rfl

/-- With every target alive, the indices selected by `N` calls from a non-negative
cursor `c` that stays within the `int` range are `c mod len, (c+1) mod len, ...`. -/
theorem selections_allAlive_from (port : String) (servers : List Server)
    (hne : servers ≠ []) (hall : ∀ s ∈ servers, s.IsAlive = true) (fuel : Nat) :
    ∀ (N c : Nat), (c : Int) ≤ maxInt → ((c + N : Nat) : Int) ≤ maxInt + 1 →
      selections fuel N ⟨port, (c : Int), servers⟩
        = .returned ((List.range N).map (fun i => (c + i) % servers.length))
            ⟨port, wrapInt ((c + N : Nat) : Int), servers⟩ := by
  have hpos : 0 < servers.length := List.length_pos.mpr hne
  intro N
  induction N with
  | zero =>
    intro c hc _
    simp only [selections, Nat.add_zero, wrapInt_natCast c hc, List.range_zero, List.map_nil]
  | succ N ih =>
    intro c hc hN
    have hlt : c % servers.length < servers.length := Nat.mod_lt _ hpos
    obtain ⟨a, ha⟩ : ∃ a, servers[c % servers.length]? = some a :=
      ⟨_, List.getElem?_eq_getElem hlt⟩
    have hcall := getNextAvailableIndex_natCast port servers a
      0 fuel c (fun j hj => absurd hj (Nat.not_lt_zero j))
      (by rw [Nat.add_zero]; exact ha)
      (hall _ (List.getElem?_mem ha)) (Nat.zero_le _) (by simpa using hc)
    simp only [Nat.add_zero] at hcall
    have hrange : List.map (fun i => (c + i) % servers.length) (List.range (N + 1))
        = c % servers.length
          :: List.map (fun i => (c + 1 + i) % servers.length) (List.range N) := by
      rw [List.range_succ_eq_map, List.map_cons, List.map_map, Nat.add_zero]
      congr 1
      apply List.map_congr_left
      intro i _
      simp only [Function.comp, Nat.succ_eq_add_one]
      rw [show c + 1 + i = c + (i + 1) by omega]
    by_cases hnext : ((c + 1 : Nat) : Int) ≤ maxInt
    · have hw : wrapInt ((c : Int) + 1) = ((c + 1 : Nat) : Int) := by
        have := wrapInt_natCast (c + 1) hnext
        push_cast at this ⊢
        exact this
      have hrest := ih (c + 1) hnext
        (by rw [show c + 1 + N = c + (N + 1) by omega]; exact hN)
      simp only [selections, hcall, hw, hrest, hrange]
      rw [show c + 1 + N = c + (N + 1) by omega]
    · have hN0 : N = 0 := by
        unfold maxInt at hnext hN hc
        push_cast at hnext hN hc
        omega
      subst hN0
      simp only [selections, hcall, hrange, List.range_zero, List.map_nil]
      push_cast
      rfl

/-- Among the first `M` terms of `0 mod K, 1 mod K, ...` the value `j < K` occurs as
often as there are `i < M` with `i ≡ j (mod K)`. -/
theorem count_mod_range (K j : Nat) (hj : j < K) :
    ∀ M : Nat, ((List.range M).map (fun i => (0 + i) % K)).count j
      = Nat.count (fun i => i ≡ j [MOD K]) M := by
  intro M
  induction M with
  | zero => simp
  | succ M ih =>
    rw [List.range_succ, List.map_append, List.count_append, ih, Nat.count_succ]
    congr 1
    simp only [List.map_cons, List.map_nil, Nat.zero_add, List.count_singleton]
    by_cases hmod : M ≡ j [MOD K]
    · have hidx : M % K = j := by
        have := hmod
        unfold Nat.ModEq at this
        rw [Nat.mod_eq_of_lt hj] at this
        exact this
      simp [hmod, hidx]
    · have hidx : ¬ M % K = j := by
        intro h
        apply hmod
        unfold Nat.ModEq
        rw [Nat.mod_eq_of_lt hj]
        exact h
      have hbeq : (M % K == j) = false := by simpa using hidx
      simp [hmod, hbeq]

/-- Over pairwise distinct targets, counting a target in the output is counting its
index among the selected indices. -/
theorem count_eq_count_index (servers : List Server) (hnd : servers.Nodup)
    (j : Nat) (hj : j < servers.length) :
    ∀ (idxs : List Nat) (out : List Server),
      out.map some = idxs.map (fun i => servers[i]?) →
      out.count servers[j] = idxs.count j := by
  intro idxs
  induction idxs with
  | nil =>
    intro out h
    have : out = [] := by simpa using h
    rw [this]
    simp
  | cons i idxs ih =>
    intro out h
    cases out with
    | nil => simp at h
    | cons x out =>
      simp only [List.map_cons, List.cons.injEq] at h
      obtain ⟨hx, hrest⟩ := h
      rw [List.count_cons, List.count_cons, ih out hrest]
      congr 1
      have hxi := List.getElem?_eq_some_iff.mp hx.symm
      obtain ⟨hi, hxeq⟩ := hxi
      by_cases hij : i = j
      · subst hij
        simp [← hxeq]
      · have hne : ¬ x = servers[j] := by
          intro hxj
          rw [← hxeq] at hxj
          exact hij ((List.Nodup.getElem_inj_iff hnd).mp hxj)
        have h1 : (x == servers[j]) = false := by simpa using hne
        have h2 : (i == j) = false := by simpa using hij
        simp [h1, h2]

/-- C6, amended: for every `K ≥ 1` alive targets and every `M ≤ 2^63`, `M` dispatches
executed one after another on a fresh balancer produce exactly `M` selections, the
`i`-th selecting index `i mod K` and returning `servers[i mod K]`, and index `j` is
selected `⌊M/K⌋ + 1` times if `j < M mod K` and `⌊M/K⌋` times otherwise: every target
index is selected `⌊M/K⌋` or `⌈M/K⌉` times, the counts of any two differ by at most
1, and all are `M/K` when `K` divides `M`.  Where the targets are pairwise distinct
the same counts are the numbers of occurrences of each target in the output. -/
theorem dispatches_fair (port : String) (servers : List Server) (M fuel : Nat)
    (hne : servers ≠ []) (hall : ∀ s ∈ servers, s.IsAlive = true)
    (hM : M ≤ 9223372036854775808) :
    ∃ out idxs lb1,
      dispatches fuel M (NewLoadBalancer port servers) = .returned out lb1 ∧
      selections fuel M (NewLoadBalancer port servers) = .returned idxs lb1 ∧
      out.length = M ∧ idxs.length = M ∧
      (∀ i, i < M → idxs[i]? = some (i % servers.length) ∧
        out[i]? = servers[i % servers.length]?) ∧
      (∀ j, j < servers.length →
        idxs.count j = M / servers.length + if j < M % servers.length then 1 else 0) ∧
      (∀ j, j < servers.length → idxs.count j = M / servers.length ∨
        (¬ servers.length ∣ M ∧ idxs.count j = M / servers.length + 1)) ∧
      (∀ j j1, j < servers.length → j1 < servers.length →
        idxs.count j ≤ idxs.count j1 + 1) ∧
      (servers.length ∣ M → ∀ j, j < servers.length → idxs.count j = M / servers.length) ∧
      (servers.Nodup → ∀ (j : Nat) (hj : j < servers.length),
        out.count servers[j] = idxs.count j) := by
  have hpos : 0 < servers.length := List.length_pos.mpr hne
  obtain ⟨out, hrun, hmap⟩ := dispatches_allAlive_from port servers hne hall fuel M 0
    (by decide) (by unfold maxInt; push_cast; omega)
  have hsel := selections_allAlive_from port servers hne hall fuel M 0
    (by decide) (by unfold maxInt; push_cast; omega)
  obtain ⟨hlen, hget⟩ := getElem?_of_map_some_eq out M _ hmap
  simp only [Nat.zero_add] at hget
  have hcount : ∀ j, j < servers.length →
      ((List.range M).map (fun i => (0 + i) % servers.length)).count j
        = M / servers.length + if j < M % servers.length then 1 else 0 := by
    intro j hj
    rw [count_mod_range servers.length j hj M, Nat.count_modEq_card M hpos j,
      Nat.mod_eq_of_lt hj]
  refine ⟨out, (List.range M).map (fun i => (0 + i) % servers.length), _, hrun, hsel, hlen,
    by simp, ?_, hcount, ?_, ?_, ?_, ?_⟩
  · intro i hi
    refine ⟨?_, hget i hi⟩
    simp [List.getElem?_map, List.getElem?_range hi]
  · intro j hj
    rw [hcount j hj]
    by_cases hjm : j < M % servers.length
    · right
      refine ⟨?_, by simp [hjm]⟩
      intro hdvd
      rw [Nat.mod_eq_zero_of_dvd hdvd] at hjm
      exact Nat.not_lt_zero j hjm
    · left
      simp [hjm]
  · intro j j1 hj hj1
    rw [hcount j hj, hcount j1 hj1]
    split <;> split <;> omega
  · intro hdvd j hj
    rw [hcount j hj, Nat.mod_eq_zero_of_dvd hdvd]
    simp
  · intro hnd j hj
    apply count_eq_count_index servers hnd j hj
    rw [hmap, List.map_map]
    apply List.map_congr_left
    intro i _
    simp only [Function.comp]

/-- C6, witness: `A, B, C` and four dispatches select indices `0, 1, 2, 0`. -/
theorem dispatches_fair_witness :
    dispatches 0 4 (NewLoadBalancer "8080" [srvA, srvB, srvC])
        = .returned [srvA, srvB, srvC, srvA] ⟨"8080", 4, [srvA, srvB, srvC]⟩ ∧
      selections 0 4 (NewLoadBalancer "8080" [srvA, srvB, srvC])
        = .returned [0, 1, 2, 0] ⟨"8080", 4, [srvA, srvB, srvC]⟩ ∧
      selections 0 4 (NewLoadBalancer "8080" [srvA, srvA])
        = .returned [0, 1, 0, 1] ⟨"8080", 4, [srvA, srvA]⟩ ∧
      ∃ out idxs lb1,
        dispatches 0 4 (NewLoadBalancer "8080" [srvA, srvA]) = .returned out lb1 ∧
        selections 0 4 (NewLoadBalancer "8080" [srvA, srvA]) = .returned idxs lb1 ∧
        out.length = 4 ∧ idxs.length = 4 ∧
        (∀ i, i < 4 → idxs[i]? = some (i % [srvA, srvA].length) ∧
          out[i]? = [srvA, srvA][i % [srvA, srvA].length]?) ∧
        (∀ j, j < [srvA, srvA].length →
          idxs.count j = 4 / [srvA, srvA].length + if j < 4 % [srvA, srvA].length then 1 else 0) ∧
        (∀ j, j < [srvA, srvA].length → idxs.count j = 4 / [srvA, srvA].length ∨
          (¬ [srvA, srvA].length ∣ 4 ∧ idxs.count j = 4 / [srvA, srvA].length + 1)) ∧
        (∀ j j1, j < [srvA, srvA].length → j1 < [srvA, srvA].length →
          idxs.count j ≤ idxs.count j1 + 1) ∧
        ([srvA, srvA].length ∣ 4 →
          ∀ j, j < [srvA, srvA].length → idxs.count j = 4 / [srvA, srvA].length) ∧
        ([srvA, srvA].Nodup → ∀ (j : Nat) (hj : j < [srvA, srvA].length),
          out.count [srvA, srvA][j] = idxs.count j) :=
  ⟨by decide, by decide, by decide,
    dispatches_fair "8080" [srvA, srvA] 4 0 (by decide) (by decide) (by decide)⟩

/-- C6, counterexample to the unbounded form: with the two alive targets `A, B` and
`M = 2^63 + 2`, the first `2^63 + 1` dispatches return, the cursor being `minInt`
and then `minInt + 1`; there the index is `-1` and the run panics, so fewer than
`M` selections are produced. -/
theorem dispatches_fair_overflow :
    dispatches 0 (9223372036854775808 + 2) (NewLoadBalancer "8080" [srvA, srvB])
      = .panicked (.indexOutOfRange (-1) 2) ⟨"8080", minInt + 1, [srvA, srvB]⟩ := by
  obtain ⟨out, hrun, _⟩ := dispatches_allAlive_from "8080" [srvA, srvB]
    (by decide) (by decide) 0 9223372036854775808 0 (by decide) (by decide)
  have hw : wrapInt ((0 + 9223372036854775808 : Nat) : Int) = minInt := by decide
  rw [hw] at hrun
  have hrun1 : dispatches 0 9223372036854775808 (NewLoadBalancer "8080" [srvA, srvB])
      = .returned out ⟨"8080", minInt, [srvA, srvB]⟩ := hrun
  rw [dispatches_add, hrun1]
  have hlast : dispatches 0 2 ⟨"8080", minInt, [srvA, srvB]⟩
      = .panicked (.indexOutOfRange (-1) 2) ⟨"8080", minInt + 1, [srvA, srvB]⟩ := by decide
  simp only [hlast]

/-! ## Classes of addresses `url.Parse` rejects or accepts -/

theorem cut_of_not_mem (sep : Char) :
    ∀ s : List Char, sep ∉ s → cut sep s = (s, []) := by
  intro s
  induction s with
  | nil => intro _; rfl
  | cons c rest ih =>
    intro h
    have hc : ¬ c = sep := fun e => h (by rw [e]; exact List.mem_cons_self _ _)
    have hrest : sep ∉ rest := fun e => h (List.mem_cons_of_mem _ e)
    simp [cut, hc, ih hrest]

theorem getSchemeLoop_of_no_colon (rawURL : List Char) :
    ∀ (s : List Char) (i : Nat), ':' ∉ s → getSchemeLoop rawURL i s = .ok ([], rawURL) := by
  intro s
  induction s with
  | nil => intro i _; rfl
  | cons c rest ih =>
    intro i h
    have hc : ¬ c = ':' := fun e => h (by rw [e]; exact List.mem_cons_self _ _)
    have hrest : ':' ∉ rest := fun e => h (List.mem_cons_of_mem _ e)
    unfold getSchemeLoop
    split
    · exact ih (i + 1) hrest
    · split
      · split
        · rfl
        · exact ih (i + 1) hrest
      · simp [hc]

theorem unescapeCheck_path_of_no_percent :
    ∀ s : List Char, '%' ∉ s → unescapeCheck .encodePath s = none := by
  intro s
  induction s with
  | nil => intro _; rfl
  | cons c rest ih =>
    intro h
    have hc : ¬ c = '%' := fun e => h (by rw [e]; exact List.mem_cons_self _ _)
    have hrest : '%' ∉ rest := fun e => h (List.mem_cons_of_mem _ e)
    unfold unescapeCheck
    simp [hc, ih hrest]

/-- A text without control characters and without `# % / : ?` is accepted by
`url.Parse` as a relative reference: no scheme, no authority, the text as path. -/
theorem urlParse_plain (addr : String)
    (h : ∀ c ∈ addr.data, 32 ≤ c.toNat ∧ c.toNat ≠ 127 ∧
      c ≠ '#' ∧ c ≠ '%' ∧ c ≠ '/' ∧ c ≠ ':' ∧ c ≠ '?') :
    urlParse addr = .ok ⟨"", "", "", addr, false, "", "", false⟩ := by
  have hhash : '#' ∉ addr.data := fun e => (h _ e).2.2.1 rfl
  have hpct : '%' ∉ addr.data := fun e => (h _ e).2.2.2.1 rfl
  have hslash : '/' ∉ addr.data := fun e => (h _ e).2.2.2.2.1 rfl
  have hcolon : ':' ∉ addr.data := fun e => (h _ e).2.2.2.2.2.1 rfl
  have hq : '?' ∉ addr.data := fun e => (h _ e).2.2.2.2.2.2 rfl
  have hctl : stringContainsCTLByte addr.data = false := by
    unfold stringContainsCTLByte
    rw [List.any_eq_false]
    intro c hc
    have := h c hc
    simp only [Bool.or_eq_true, decide_eq_true_eq, not_or]
    omega
  have hparse : parse addr.data = .ok ⟨"", "", "", addr, false, "", "", false⟩ := by
    by_cases hstar : addr.data = ['*']
    · have haddr : addr = "*" := by
        cases addr
        simp only at hstar
        rw [hstar]
      rw [haddr]
      rfl
    · unfold parse
      have hcount : List.count '?' addr.data = 0 := List.count_eq_zero_of_not_mem hq
      have htake : ¬ addr.data.take 2 = ['/', '/'] := by
        intro e
        apply hslash
        apply List.mem_of_mem_take (n := 2)
        rw [e]
        simp
      have hcontains : addr.data.contains ':' = false := by
        simpa using hcolon
      simp [hctl, hstar, getScheme, getSchemeLoop_of_no_colon addr.data addr.data 0 hcolon,
        hcount, cut_of_not_mem '?' addr.data hq, cut_of_not_mem '/' addr.data hslash,
        hcontains, htake, hcolon, unescapeCheck_path_of_no_percent addr.data hpct]
  unfold urlParse
  simp [cut_of_not_mem '#' addr.data hhash, hparse]

/-- A text with a control character before its first `#` is rejected. -/
theorem urlParse_control (addr : String)
    (h : stringContainsCTLByte (cut '#' addr.data).1 = true) :
    urlParse addr
      = .error ⟨"parse", String.mk (cut '#' addr.data).1, .invalidControlCharacter⟩ := by
  unfold urlParse parse
  simp [h]

/-- A text that begins with `:` is rejected. -/
theorem urlParse_leading_colon (addr : String) (h : addr.data.head? = some ':') :
    urlParse addr
        = .error ⟨"parse", String.mk (cut '#' addr.data).1, .invalidControlCharacter⟩ ∨
      urlParse addr
        = .error ⟨"parse", String.mk (cut '#' addr.data).1, .missingProtocolScheme⟩ := by
  by_cases hctl : stringContainsCTLByte (cut '#' addr.data).1 = true
  · exact Or.inl (urlParse_control addr hctl)
  · right
    obtain ⟨rest, hrest⟩ : ∃ rest, addr.data = ':' :: rest := by
      cases hd : addr.data with
      | nil => rw [hd] at h; cases h
      | cons c rest =>
        rw [hd] at h
        simp only [List.head?_cons, Option.some.injEq] at h
        exact ⟨rest, by rw [h]⟩
    have hcut : (cut '#' addr.data).1 = ':' :: (cut '#' rest).1 := by
      rw [hrest]
      simp [cut]
    rw [hcut] at hctl ⊢
    unfold urlParse parse
    rw [hcut]
    simp [hctl, getScheme, getSchemeLoop]

theorem cut_fst_eq_takeWhile (sep : Char) :
    ∀ s : List Char, (cut sep s).1 = s.takeWhile (fun c => c != sep) := by
  intro s
  induction s with
  | nil => rfl
  | cons c rest ih =>
    by_cases hc : c = sep
    · simp [cut, hc, List.takeWhile]
    · have hne : (c != sep) = true := by simpa using hc
      rw [List.takeWhile_cons, hne]
      simp [cut, hc, ih]

/-! ## Target construction (C5, C8) -/

/-- What `newSimpleServer` does, read off `url.Parse`'s result. -/
theorem newSimpleServer_of_urlParse (addr : String) :
    (∀ e, urlParse addr = .error e →
      newSimpleServer addr = .error ⟨"error : %v\n", e, 1⟩) ∧
    (∀ u, urlParse addr = .ok u →
      newSimpleServer addr = .ok ⟨addr, NewSingleHostReverseProxy (some u)⟩) := by
  constructor
  · intro e h
    simp [newSimpleServer, urlParseResults, h, handleErr]
  · intro u h
    simp [newSimpleServer, urlParseResults, h, handleErr]

/-- C5, amended: `newSimpleServer` terminates with a fatal error (`handleErr` prints
the error and exits with status 1) and produces no `simpleServer` exactly for the
addresses `url.Parse` rejects; for every address `url.Parse` accepts, absolute URL
or not, it returns the `simpleServer` holding the address and the proxy for the
parsed URL.  Rejected is every address with an ASCII control character before its
first `#`, and every address that begins with `:`.  Accepted is every address that
holds no control character and none of the characters `# % / : ?`: it is taken as a
relative reference with neither scheme nor host. -/
theorem newSimpleServer_fatal_iff_parse_error (addr : String) :
    (∀ e, urlParse addr = .error e →
      newSimpleServer addr = .error ⟨"error : %v\n", e, 1⟩) ∧
    (∀ u, urlParse addr = .ok u →
      newSimpleServer addr = .ok ⟨addr, NewSingleHostReverseProxy (some u)⟩) ∧
    ((∃ exit, newSimpleServer addr = .error exit) ↔ ∃ e, urlParse addr = .error e) ∧
    ((∃ s, newSimpleServer addr = .ok s) ↔ ∃ u, urlParse addr = .ok u) ∧
    ((∃ c ∈ addr.data.takeWhile (fun c => c != '#'), c.toNat < 32 ∨ c.toNat = 127) →
      newSimpleServer addr = .error ⟨"error : %v\n",
        ⟨"parse", String.mk (addr.data.takeWhile (fun c => c != '#')),
          .invalidControlCharacter⟩, 1⟩) ∧
    (addr.data.head? = some ':' →
      ∃ exit, newSimpleServer addr = .error exit ∧ exit.status = 1 ∧
        (exit.err.Err = .invalidControlCharacter ∨ exit.err.Err = .missingProtocolScheme)) ∧
    ((∀ c ∈ addr.data, 32 ≤ c.toNat ∧ c.toNat ≠ 127 ∧
        c ≠ '#' ∧ c ≠ '%' ∧ c ≠ '/' ∧ c ≠ ':' ∧ c ≠ '?') →
      newSimpleServer addr
        = .ok ⟨addr, NewSingleHostReverseProxy (some ⟨"", "", "", addr, false, "", "", false⟩)⟩) := by
  obtain ⟨herr, hok⟩ := newSimpleServer_of_urlParse addr
  refine ⟨herr, hok, ?_, ?_, ?_, ?_, ?_⟩
  · constructor
    · rintro ⟨exit, hexit⟩
      cases h : urlParse addr with
      | error e => exact ⟨e, rfl⟩
      | ok u =>
        rw [hok u h] at hexit
        cases hexit
    · rintro ⟨e, he⟩
      exact ⟨_, herr e he⟩
  · constructor
    · rintro ⟨srv, hsrv⟩
      cases h : urlParse addr with
      | error e =>
        rw [herr e h] at hsrv
        cases hsrv
      | ok u => exact ⟨u, rfl⟩
    · rintro ⟨u, hu⟩
      exact ⟨_, hok u hu⟩
  · rintro ⟨c, hc, hctl⟩
    rw [← cut_fst_eq_takeWhile '#' addr.data] at hc ⊢
    apply herr
    apply urlParse_control
    unfold stringContainsCTLByte
    rw [List.any_eq_true]
    refine ⟨c, hc, ?_⟩
    simpa using hctl
  · intro hhead
    rcases urlParse_leading_colon addr hhead with h | h
    · exact ⟨_, herr _ h, rfl, Or.inl rfl⟩
    · exact ⟨_, herr _ h, rfl, Or.inr rfl⟩
  · intro hplain
    exact hok _ (urlParse_plain addr hplain)

/-- C5, the amended statement at concrete addresses: `":8080"`, `"http://[::1"`,
`"http://not a url"`, `"%zz"` and an address ending in a line feed are fatal; the
three addresses of `main` are accepted, and so are a line feed after `#` and a bad
escape after a scheme. -/
theorem newSimpleServer_fatal_iff_parse_error_witness :
    newSimpleServer ":8080"
        = .error ⟨"error : %v\n", ⟨"parse", ":8080", .missingProtocolScheme⟩, 1⟩ ∧
      newSimpleServer "http://[::1"
        = .error ⟨"error : %v\n", ⟨"parse", "http://[::1", .missingBracket⟩, 1⟩ ∧
      newSimpleServer "http://not a url"
        = .error ⟨"error : %v\n", ⟨"parse", "http://not a url", .invalidHostError⟩, 1⟩ ∧
      newSimpleServer "%zz"
        = .error ⟨"error : %v\n", ⟨"parse", "%zz", .escapeError⟩, 1⟩ ∧
      newSimpleServer "https://www.google.com\n"
        = .error ⟨"error : %v\n",
            ⟨"parse", "https://www.google.com\n", .invalidControlCharacter⟩, 1⟩ ∧
      newSimpleServer "https://www.facebook.com"
        = .ok ⟨"https://www.facebook.com",
            ⟨some ⟨"https", "", "www.facebook.com", "", false, "", "", false⟩⟩⟩ ∧
      newSimpleServer "https://www.google.com"
        = .ok ⟨"https://www.google.com",
            ⟨some ⟨"https", "", "www.google.com", "", false, "", "", false⟩⟩⟩ ∧
      newSimpleServer "https://www.duckduckgo.com"
        = .ok ⟨"https://www.duckduckgo.com",
            ⟨some ⟨"https", "", "www.duckduckgo.com", "", false, "", "", false⟩⟩⟩ ∧
      newSimpleServer "https://www.google.com#\n"
        = .ok ⟨"https://www.google.com#\n",
            ⟨some ⟨"https", "", "www.google.com", "", false, "", "\n", false⟩⟩⟩ ∧
      newSimpleServer "mailto:%zz"
        = .ok ⟨"mailto:%zz", ⟨some ⟨"mailto", "%zz", "", "", false, "", "", false⟩⟩⟩ :=
  ⟨(newSimpleServer_fatal_iff_parse_error ":8080").1 _ rfl,
    (newSimpleServer_fatal_iff_parse_error "http://[::1").1 _ rfl,
    (newSimpleServer_fatal_iff_parse_error "http://not a url").1 _ rfl,
    (newSimpleServer_fatal_iff_parse_error "%zz").1 _ rfl,
    (newSimpleServer_fatal_iff_parse_error "https://www.google.com\n").1 _ rfl,
    (newSimpleServer_fatal_iff_parse_error "https://www.facebook.com").2.1 _ rfl,
    (newSimpleServer_fatal_iff_parse_error "https://www.google.com").2.1 _ rfl,
    (newSimpleServer_fatal_iff_parse_error "https://www.duckduckgo.com").2.1 _ rfl,
    (newSimpleServer_fatal_iff_parse_error "https://www.google.com#\n").2.1 _ rfl,
    (newSimpleServer_fatal_iff_parse_error "mailto:%zz").2.1 _ rfl⟩

/-- C5, counterexample: the empty string and `"not a url"` are not absolute URLs,
yet `url.Parse` accepts both (as relative references with path `""` and
`"not a url"`), so `newSimpleServer` returns a `simpleServer` for each and nothing
exits. -/
theorem newSimpleServer_accepts_relative :
    newSimpleServer ""
        = .ok ⟨"", ⟨some ⟨"", "", "", "", false, "", "", false⟩⟩⟩ ∧
      newSimpleServer "not a url"
        = .ok ⟨"not a url", ⟨some ⟨"", "", "", "not a url", false, "", "", false⟩⟩⟩ :=
  ⟨rfl, rfl⟩

/-- C8: for every address `s` for which `newSimpleServer s` produces a target, the
target's `Address()` is `s` itself, also when the target is used through the
`Server` interface; `Address` only reads the field, so the target it is called on
is unchanged. -/
theorem address_returns_constructor_argument (s : String) (srv : simpleServer)
    (h : newSimpleServer s = .ok srv) :
    srv.Address = s ∧ srv.toServer.Address = s ∧ srv.addr = s := by
  unfold newSimpleServer at h
  cases hp : urlParse s with
  | error e =>
    simp [urlParseResults, hp, handleErr] at h
  | ok u =>
    simp only [urlParseResults, hp, handleErr, Except.ok.injEq] at h
    subst h
    exact ⟨rfl, rfl, rfl⟩

/-- C8, witness: the second address of `main`. -/
theorem address_returns_constructor_argument_witness :
    newSimpleServer "https://www.google.com"
        = .ok ⟨"https://www.google.com",
            ⟨some ⟨"https", "", "www.google.com", "", false, "", "", false⟩⟩⟩ ∧
      simpleServer.Address ⟨"https://www.google.com",
          ⟨some ⟨"https", "", "www.google.com", "", false, "", "", false⟩⟩⟩
        = "https://www.google.com" :=
  ⟨rfl,
    (address_returns_constructor_argument "https://www.google.com"
      ⟨"https://www.google.com", ⟨some ⟨"https", "", "www.google.com", "", false, "", "", false⟩⟩⟩
      rfl).1⟩

/-! ## Unsynchronised cursor (C9) -/

/-- C9, the failing input evaluated: two goroutines dispatch on a fresh balancer
over the alive targets `A, B`.  Run one after the other they observe cursor 0 and 1
and select `A` and `B`.  Interleaved statement by statement, both read the cursor
before either increments it: both observe 0 and both select `A`, and `B` is not
selected at all. -/
theorem concurrent_dispatches_race :
    World.run ⟨NewLoadBalancer "8080" [srvA, srvB], [.line72, .line72]⟩ [0, 0, 0, 1, 1, 1]
        = ⟨⟨"8080", 2, [srvA, srvB]⟩, [.returned 0 srvA, .returned 1 srvB]⟩ ∧
      World.run ⟨NewLoadBalancer "8080" [srvA, srvB], [.line72, .line72]⟩ [0, 1, 0, 1, 0, 1]
        = ⟨⟨"8080", 2, [srvA, srvB]⟩, [.returned 0 srvA, .returned 0 srvA]⟩ := by
  decide

end Balancer
